import Mathlib

/-!
# Verification of `sigslot.hpp` (NauhWuun/sigslot11)

A shallow embedding of the signal/slot library in `src/sigslot.hpp`.

Object identities (the C++ heap pointers of `signals`/`has_slots` objects
and of `_connection_bases` nodes) are modelled as natural numbers.

* A connection (`_connections<dest_type, args...>`) stores the target
  receiver (`m_pobject`, identity `dest`) and the bound member function
  (`m_pmemfun`, identity `fn`).
* An emitter (`_signal_bases`) stores `m_connected_slots`, an ordered
  `std::list` of connections, modelled as `List Conn`.
* A receiver (`has_slots`) stores `m_senders`, a `std::set` of emitter
  identities ordered by key, modelled as a strictly sorted `List Nat`
  (`setInsert` / `setErase` below are the `std::set` insert/erase).
* The whole object graph is a pair of association lists from live object
  identities to their contents (`St` below).

The `StaticGuard<> guard();` lines of the source declare a function
(vexing parse) and take no lock; no claim here concerns locking, and the
model is the sequential semantics of the method bodies.
-/

namespace Sigslot

/-! ## `std::set<_signal_base*>` modelled as a strictly sorted list -/

/-- Model of `std::set::insert`: insert `x` keeping the list strictly sorted;
no change if `x` is already present. -/
def setInsert (x : Nat) : List Nat → List Nat
  | [] => [x]
  | y :: ys =>
    if x < y then x :: y :: ys
    else if x = y then y :: ys
    else y :: setInsert x ys

/-- Model of `std::set::erase(key)`: remove the (unique, in a well-formed set)
occurrence of `x`. -/
def setErase (x : Nat) : List Nat → List Nat
  | [] => []
  | y :: ys => if x = y then ys else y :: setErase x ys

theorem mem_setInsert {a x : Nat} : ∀ {l : List Nat},
    a ∈ setInsert x l ↔ a = x ∨ a ∈ l := by
  intro l
  induction l with
  | nil => simp [setInsert]
  | cons y ys ih =>
    by_cases h1 : x < y
    · simp [setInsert, h1]
    · by_cases h2 : x = y
      · subst h2
        simp [setInsert, h1]
      · simp [setInsert, h1, h2, List.mem_cons, ih]
        tauto

theorem setInsert_chain {x : Nat} : ∀ {l : List Nat},
    List.Chain' (· < ·) l → List.Chain' (· < ·) (setInsert x l) := by
  intro l
  induction l with
  | nil => intro; simp [setInsert]
  | cons y ys ih =>
    intro hch
    rw [List.chain'_cons'] at hch
    obtain ⟨hy, hys⟩ := hch
    by_cases h1 : x < y
    · simp only [setInsert, if_pos h1]
      rw [List.chain'_cons]
      exact ⟨h1, by rw [List.chain'_cons']; exact ⟨hy, hys⟩⟩
    · by_cases h2 : x = y
      · simp only [setInsert, if_neg h1, if_pos h2]
        rw [List.chain'_cons']; exact ⟨hy, hys⟩
      · have hyx : y < x := by omega
        simp only [setInsert, if_neg h1, if_neg h2]
        rw [List.chain'_cons']
        refine ⟨?_, ih hys⟩
        intro z hz
        cases ys with
        | nil => simp [setInsert] at hz; omega
        | cons w ws =>
          by_cases hxw : x < w
          · simp [setInsert, hxw] at hz
            subst hz; omega
          · by_cases hxw2 : x = w
            · simp [setInsert, hxw, hxw2] at hz
              subst hz
              exact hy w (by simp)
            · simp [setInsert, hxw, hxw2] at hz
              subst hz
              exact hy w (by simp)

theorem mem_of_mem_setErase {a x : Nat} : ∀ {l : List Nat},
    a ∈ setErase x l → a ∈ l := by
  intro l
  induction l with
  | nil => simp [setErase]
  | cons y ys ih =>
    by_cases h : x = y
    · simp [setErase, h]; intro hm; exact Or.inr hm
    · simp [setErase, h]
      rintro (rfl | hm)
      · exact Or.inl rfl
      · exact Or.inr (ih hm)

theorem setErase_sublist (x : Nat) : ∀ (l : List Nat), List.Sublist (setErase x l) l := by
  intro l
  induction l with
  | nil => simp [setErase]
  | cons y ys ih =>
    by_cases h : x = y
    · simp only [setErase, if_pos h]
      exact List.sublist_cons_self y ys
    · simp only [setErase, if_neg h]
      exact List.Sublist.cons₂ y ih

theorem setErase_chain {x : Nat} {l : List Nat}
    (h : List.Chain' (· < ·) l) : List.Chain' (· < ·) (setErase x l) :=
  List.Chain'.sublist h (setErase_sublist x l)

theorem not_mem_setErase_self {x : Nat} : ∀ {l : List Nat},
    l.Nodup → x ∉ setErase x l := by
  intro l
  induction l with
  | nil => simp [setErase]
  | cons y ys ih =>
    intro hnd
    rw [List.nodup_cons] at hnd
    by_cases h : x = y
    · simp only [setErase, if_pos h]
      subst h; exact hnd.1
    · simp only [setErase, if_neg h]
      intro hm
      rcases List.mem_cons.mp hm with rfl | hm'
      · exact h rfl
      · exact ih hnd.2 hm'

theorem mem_setErase_of_ne {a x : Nat} : ∀ {l : List Nat},
    a ∈ l → a ≠ x → a ∈ setErase x l := by
  intro l
  induction l with
  | nil => simp
  | cons y ys ih =>
    intro hm hne
    by_cases h : x = y
    · simp only [setErase, if_pos h]
      rcases List.mem_cons.mp hm with rfl | hm'
      · exact absurd h.symm hne
      · exact hm'
    · simp only [setErase, if_neg h]
      rcases List.mem_cons.mp hm with rfl | hm'
      · exact List.mem_cons_self _ _
      · exact List.mem_cons_of_mem y (ih hm' hne)

theorem chain_lt_nodup : ∀ {l : List Nat}, List.Chain' (· < ·) l → l.Nodup := by
  intro l h
  exact (List.chain'_iff_pairwise.mp h).nodup

/-! ## Association lists (the live-object tables) -/

/-- Lookup by key, first entry wins. -/
def alookup {β : Type} : List (Nat × β) → Nat → Option β
  | [], _ => none
  | (k, v) :: ts, x => if x = k then some v else alookup ts x

/-- Apply `f` to the value stored under key `x` (all entries with that key). -/
def aupd {β : Type} (f : β → β) (x : Nat) : List (Nat × β) → List (Nat × β)
  | [] => []
  | (k, v) :: ts => if x = k then (k, f v) :: aupd f x ts else (k, v) :: aupd f x ts

/-- Remove every entry under key `x` (object destruction). -/
def aerase {β : Type} (x : Nat) (l : List (Nat × β)) : List (Nat × β) :=
  l.filter (fun p => p.1 ≠ x)

theorem alookup_aupd_self {β : Type} (f : β → β) (x : Nat) :
    ∀ (l : List (Nat × β)), alookup (aupd f x l) x = (alookup l x).map f := by
  intro l
  induction l with
  | nil => simp [alookup, aupd]
  | cons p ts ih =>
    obtain ⟨k, v⟩ := p
    by_cases h : x = k
    · simp [aupd, alookup, h]
    · simp [aupd, alookup, h, ih]

theorem alookup_aupd_ne {β : Type} (f : β → β) (x y : Nat) (hne : y ≠ x) :
    ∀ (l : List (Nat × β)), alookup (aupd f x l) y = alookup l y := by
  intro l
  induction l with
  | nil => simp [alookup, aupd]
  | cons p ts ih =>
    obtain ⟨k, v⟩ := p
    by_cases h : x = k
    · subst h
      simp [aupd, alookup, if_neg hne, ih]
    · by_cases h2 : y = k
      · simp [aupd, alookup, h, h2]
      · simp [aupd, alookup, h, h2, ih]

theorem map_fst_aupd {β : Type} (f : β → β) (x : Nat) :
    ∀ (l : List (Nat × β)), (aupd f x l).map Prod.fst = l.map Prod.fst := by
  intro l
  induction l with
  | nil => simp [aupd]
  | cons p ts ih =>
    obtain ⟨k, v⟩ := p
    by_cases h : x = k
    · subst h; simp [aupd, ih]
    · simp [aupd, h, ih]

theorem alookup_append_left {β : Type} {l : List (Nat × β)} {x : Nat} {v : β}
    (h : alookup l x = some v) (l' : List (Nat × β)) :
    alookup (l ++ l') x = some v := by
  induction l with
  | nil => simp [alookup] at h
  | cons p ts ih =>
    obtain ⟨k, w⟩ := p
    by_cases hk : x = k
    · simp [alookup, hk] at h ⊢; exact h
    · simp [alookup, hk] at h ⊢; exact ih h

theorem alookup_append_right {β : Type} {l : List (Nat × β)} {x : Nat}
    (h : alookup l x = none) (l' : List (Nat × β)) :
    alookup (l ++ l') x = alookup l' x := by
  induction l with
  | nil => simp [alookup]
  | cons p ts ih =>
    obtain ⟨k, w⟩ := p
    by_cases hk : x = k
    · simp [alookup, hk] at h
    · simp [alookup, hk] at h ⊢; exact ih h

theorem alookup_eq_none_of_not_mem {β : Type} {l : List (Nat × β)} {x : Nat}
    (h : x ∉ l.map Prod.fst) : alookup l x = none := by
  induction l with
  | nil => simp [alookup]
  | cons p ts ih =>
    obtain ⟨k, v⟩ := p
    rw [List.map_cons, List.mem_cons] at h
    push_neg at h
    simp [alookup, h.1, ih h.2]

theorem alookup_isSome_iff_mem {β : Type} {l : List (Nat × β)} {x : Nat} :
    (alookup l x).isSome ↔ x ∈ l.map Prod.fst := by
  induction l with
  | nil => simp [alookup]
  | cons p ts ih =>
    obtain ⟨k, v⟩ := p
    by_cases h : x = k
    · simp [alookup, h]
    · simp [alookup, h, ih]

theorem mem_of_alookup_eq_some {β : Type} {l : List (Nat × β)} {x : Nat} {v : β}
    (h : alookup l x = some v) : (x, v) ∈ l := by
  induction l with
  | nil => simp [alookup] at h
  | cons p ts ih =>
    obtain ⟨k, w⟩ := p
    by_cases hk : x = k
    · simp [alookup, hk] at h
      subst hk; subst h; exact List.mem_cons_self _ _
    · simp [alookup, hk] at h
      exact List.mem_cons_of_mem _ (ih h)

theorem alookup_eq_some_of_mem {β : Type} {l : List (Nat × β)} {x : Nat} {v : β}
    (hnd : (l.map Prod.fst).Nodup) (h : (x, v) ∈ l) : alookup l x = some v := by
  induction l with
  | nil => simp at h
  | cons p ts ih =>
    obtain ⟨k, w⟩ := p
    rw [List.map_cons, List.nodup_cons] at hnd
    rcases List.mem_cons.mp h with heq | hm
    · rw [Prod.mk.injEq] at heq
      obtain ⟨rfl, rfl⟩ := heq
      simp [alookup]
    · have hxk : x ≠ k := by
        rintro rfl
        exact hnd.1 (List.mem_map.mpr ⟨(x, v), hm, rfl⟩)
      simp [alookup, hxk]
      exact ih hnd.2 hm

/-! ## The object graph: connections, emitters, receivers -/

/-- A `_connections<dest_type, args_type...>` node: `m_pobject` is the
identity of the target receiver (`dest`), `m_pmemfun` the identity of the
bound member function (`fn`). -/
structure Conn where
  dest : Nat
  fn : Nat
deriving DecidableEq, Repr

/-- The global object graph.  `sigs` maps each live `signals` object's
identity to its `m_connected_slots` list; `slots` maps each live
`has_slots` object's identity to its `m_senders` set. -/
structure St where
  sigs : List (Nat × List Conn)
  slots : List (Nat × List Nat)
deriving DecidableEq, Repr

/-- The `m_connected_slots` list of emitter `e` (empty if `e` is not live). -/
def getSig (st : St) (e : Nat) : List Conn := (alookup st.sigs e).getD []

/-- The `m_senders` set of receiver `r` (empty if `r` is not live). -/
def getSlot (st : St) (r : Nat) : List Nat := (alookup st.slots r).getD []

/-- Emitter `e` is a live object. -/
def liveE (st : St) (e : Nat) : Prop := e ∈ st.sigs.map Prod.fst

/-- Receiver `r` is a live object. -/
def liveR (st : St) (r : Nat) : Prop := r ∈ st.slots.map Prod.fst

instance (st : St) (e : Nat) : Decidable (liveE st e) :=
  inferInstanceAs (Decidable (e ∈ st.sigs.map Prod.fst))
instance (st : St) (r : Nat) : Decidable (liveR st r) :=
  inferInstanceAs (Decidable (r ∈ st.slots.map Prod.fst))

/-- The first connection in list order whose `getdest()` equals `r` is
removed; `none` when no connection matches (the loop of
`_signal_bases::disconnect` falls off the end). -/
def removeFirst (r : Nat) : List Conn → Option (List Conn)
  | [] => none
  | c :: cs => if c.dest = r then some cs else (removeFirst r cs).map (c :: ·)

/-- Model of `_signal_bases::slot_disconnect(pslot)`: the loop captures `itNext`
before a possible `erase`, so it simply drops every connection whose
`getdest()` equals `pslot` (the erased nodes are not `delete`d by the
source — a leak, invisible to this state model). -/
def slotDisconnectList (r : Nat) (l : List Conn) : List Conn :=
  l.filter (fun c => c.dest ≠ r)

/-- Model of `_signal_bases::slot_duplicate(oldtarget, newtarget)`: the while loop
scans `m_connected_slots` from the front and, for each node whose
`getdest()` equals `oldtarget`, pushes `(*it)->duplicate(newtarget)` — a
new node with the same `m_pmemfun` and `m_pobject = newtarget` — at the
back.  `std::list::push_back` keeps all iterators valid and the appended
nodes precede `end()`, so the loop also reaches them; they target
`newtarget`, and at the only call site (the `has_slots` copy constructor)
`newtarget ≠ oldtarget`, so they are not duplicated again.  The loop's
result is therefore the original list followed by the rebound copies of
the matching nodes, in their original order. -/
def slotDuplicateList (old new : Nat) (l : List Conn) : List Conn :=
  l ++ (l.filter (fun c => c.dest = old)).map (fun c => ⟨new, c.fn⟩)

/-- Model of `signals::connect(pclass, pmemfun)`: push a new connection at the back
of `m_connected_slots`, then `pclass->signal_connect(this)` inserts the
emitter into the receiver's `m_senders`. -/
def connectOp (st : St) (e r f : Nat) : St :=
  { sigs := aupd (fun l => l ++ [⟨r, f⟩]) e st.sigs
    slots := aupd (setInsert e) r st.slots }

/-- Model of `_signal_bases::disconnect(pclass)`: scan for the first connection
whose `getdest()` equals `pclass`; when found, `delete` it, erase it from
the list, call `pclass->signal_disconnect(this)` (erasing the emitter from
the receiver's `m_senders`) and return; otherwise do nothing. -/
def disconnectOp (st : St) (e r : Nat) : St :=
  match removeFirst r (getSig st e) with
  | none => st
  | some l' =>
    { sigs := aupd (fun _ => l') e st.sigs
      slots := aupd (setErase e) r st.slots }

/-- Model of `_signal_bases::disconnect_all()`: for every connection in list order,
`getdest()->signal_disconnect(this)` (erase the emitter from that
receiver's `m_senders`), then clear the list. -/
def disconnectAllOp (st : St) (e : Nat) : St :=
  { sigs := aupd (fun _ => []) e st.sigs
    slots := (getSig st e).foldl (fun sl c => aupd (setErase e) c.dest sl) st.slots }

/-- Model of `~_signal_bases()`: `disconnect_all()`, then the object dies. -/
def destroyEOp (st : St) (e : Nat) : St :=
  let st' := disconnectAllOp st e
  { st' with sigs := aerase e st'.sigs }

/-- Model of `has_slots::disconnect_all()` (the body of `~has_slots()`): for every
sender in `m_senders` (in `std::set` key order), `slot_disconnect(this)`,
then erase the whole set. -/
def destroyROp (st : St) (r : Nat) : St :=
  let st' : St :=
    { st with
      sigs := (getSlot st r).foldl (fun sg e => aupd (slotDisconnectList r) e sg) st.sigs }
  { st' with slots := aerase r st'.slots }

/-- Model of `_signal_bases(const _signal_bases& s)` (reached through the `signals`
copy constructor): for every connection of the source in list order,
`getdest()->signal_connect(this)` registers the new emitter `e'` with the
target, and `clone()` — a copy of the node, same `m_pobject` and
`m_pmemfun` — is pushed at the back of the new list. -/
def copyEOp (st : St) (src dst : Nat) : St :=
  { sigs := st.sigs ++ [(dst, getSig st src)]
    slots := (getSig st src).foldl (fun sl c => aupd (setInsert dst) c.dest sl) st.slots }

/-- Model of `has_slots(const has_slots& hs)`: for every sender in the source's
`m_senders` (in `std::set` key order), `slot_duplicate(&hs, this)` on that
emitter, and the sender is inserted into the new object's own
`m_senders`. -/
def copyROp (st : St) (src dst : Nat) : St :=
  let senders := getSlot st src
  let st' : St :=
    { st with
      sigs := senders.foldl (fun sg e => aupd (slotDuplicateList src dst) e sg) st.sigs }
  { st' with slots := st'.slots ++ [(dst, senders.foldl (fun s e => setInsert e s) [])] }

/-- Model of `signals::emit(args...)` with non-reentrant callables: the loop walks
`m_connected_slots` front to back, capturing `itNext` before invoking
`(*it)->emit(args...)`, which calls `(m_pobject->*m_pmemfun)(args...)`.
When no callable mutates the graph the traversal visits every node once
in order; the trace records `(m_pobject, m_pmemfun, args)` per call.
(Reentrant callables are modelled separately by `emitGo` below.) -/
def emitTrace (st : St) (e : Nat) (a : Nat) : List (Nat × Nat × Nat) :=
  (getSig st e).map (fun c => (c.dest, c.fn, a))

/-- The public operations of the library (§6 of the spec): construction,
`connect`, `disconnect`, `disconnect_all`, `emit`, copy and destruction of
either endpoint. -/
inductive Op
  | newE (e : Nat)
  | newR (r : Nat)
  | connect (e r f : Nat)
  | disconnect (e r : Nat)
  | disconnectAll (e : Nat)
  | emit (e a : Nat)
  | copyE (src dst : Nat)
  | copyR (src dst : Nat)
  | destroyE (e : Nat)
  | destroyR (r : Nat)
deriving DecidableEq, Repr

/-- One public operation.  Guards encode C++ object reality: a method can
only be called on a live object, and a newly constructed object's address
is fresh; an operation whose guard fails leaves the state unchanged. -/
def step (st : St) : Op → St
  | .newE e => if liveE st e then st else { st with sigs := st.sigs ++ [(e, [])] }
  | .newR r => if liveR st r then st else { st with slots := st.slots ++ [(r, [])] }
  | .connect e r f => if liveE st e ∧ liveR st r then connectOp st e r f else st
  | .disconnect e r => if liveE st e ∧ liveR st r then disconnectOp st e r else st
  | .disconnectAll e => if liveE st e then disconnectAllOp st e else st
  | .emit _ _ => st
  | .copyE src dst =>
    if liveE st src ∧ ¬ liveE st dst then copyEOp st src dst else st
  | .copyR src dst =>
    if liveR st src ∧ ¬ liveR st dst then copyROp st src dst else st
  | .destroyE e => if liveE st e then destroyEOp st e else st
  | .destroyR r => if liveR st r then destroyROp st r else st

/-- Run a sequence of public operations from a state. -/
def run (st : St) (ops : List Op) : St := ops.foldl step st

/-- The empty object graph. -/
def St.empty : St := ⟨[], []⟩

/-! ## Well-formedness and the symmetric cross-reference invariant -/

/-- Structural well-formedness of the model: object identities are unique
keys, and every `m_senders` value is a strictly sorted list (as a
`std::set` is). -/
def WF (st : St) : Prop :=
  (st.sigs.map Prod.fst).Nodup ∧ (st.slots.map Prod.fst).Nodup ∧
    ∀ q ∈ st.slots, List.Pairwise (· < ·) q.2

/-- Forward half of the invariant: every connection in a live emitter's
list targets a live receiver that lists this emitter in `m_senders`. -/
def InvFwd (st : St) : Prop :=
  ∀ p ∈ st.sigs, ∀ c ∈ p.2, liveR st c.dest ∧ p.1 ∈ getSlot st c.dest

/-- Backward half of the invariant: every emitter in a live receiver's
`m_senders` is live and holds at least one connection targeting this
receiver. -/
def InvBwd (st : St) : Prop :=
  ∀ q ∈ st.slots, ∀ e ∈ q.2, liveE st e ∧ ∃ c ∈ getSig st e, c.dest = q.1

/-- The symmetric cross-reference invariant of §3 of the spec. -/
def Inv (st : St) : Prop := InvFwd st ∧ InvBwd st

instance (st : St) : Decidable (WF st) :=
  inferInstanceAs (Decidable ((st.sigs.map Prod.fst).Nodup ∧
    (st.slots.map Prod.fst).Nodup ∧ ∀ q ∈ st.slots, List.Pairwise (· < ·) q.2))
instance (st : St) : Decidable (InvFwd st) :=
  inferInstanceAs (Decidable
    (∀ p ∈ st.sigs, ∀ c ∈ p.2, liveR st c.dest ∧ p.1 ∈ getSlot st c.dest))
instance (st : St) : Decidable (InvBwd st) :=
  inferInstanceAs (Decidable
    (∀ q ∈ st.slots, ∀ e ∈ q.2, liveE st e ∧ ∃ c ∈ getSig st e, c.dest = q.1))
instance (st : St) : Decidable (Inv st) :=
  inferInstanceAs (Decidable (InvFwd st ∧ InvBwd st))

theorem invFwd_apply {st : St} (h : InvFwd st) {e : Nat} {c : Conn}
    (hc : c ∈ getSig st e) : liveR st c.dest ∧ e ∈ getSlot st c.dest := by
  unfold getSig at hc
  cases hl : alookup st.sigs e with
  | none => rw [hl] at hc; simp at hc
  | some l =>
    rw [hl] at hc
    simp at hc
    exact h (e, l) (mem_of_alookup_eq_some hl) c hc

theorem invBwd_apply {st : St} (h : InvBwd st) {r e : Nat}
    (he : e ∈ getSlot st r) : liveE st e ∧ ∃ c ∈ getSig st e, c.dest = r := by
  unfold getSlot at he
  cases hl : alookup st.slots r with
  | none => rw [hl] at he; simp at he
  | some s =>
    rw [hl] at he
    simp at he
    exact h (r, s) (mem_of_alookup_eq_some hl) e he

theorem invFwd_of_forall {st : St}
    (h : ∀ e, ∀ c ∈ getSig st e, liveR st c.dest ∧ e ∈ getSlot st c.dest)
    (hnd : (st.sigs.map Prod.fst).Nodup) : InvFwd st := by
  intro p hp c hc
  have : alookup st.sigs p.1 = some p.2 := alookup_eq_some_of_mem hnd (by
    cases p; exact hp)
  refine h p.1 c ?_
  unfold getSig
  rw [this]
  simpa using hc

theorem invBwd_of_forall {st : St}
    (h : ∀ r, ∀ e ∈ getSlot st r, liveE st e ∧ ∃ c ∈ getSig st e, c.dest = r)
    (hnd : (st.slots.map Prod.fst).Nodup) : InvBwd st := by
  intro q hq e he
  have : alookup st.slots q.1 = some q.2 := alookup_eq_some_of_mem hnd (by
    cases q; exact hq)
  refine h q.1 e ?_
  unfold getSlot
  rw [this]
  simpa using he

theorem pairwise_lt_nodup {l : List Nat} (h : List.Pairwise (· < ·) l) : l.Nodup :=
  h.imp (fun hab => Nat.ne_of_lt hab)

theorem wf_slot_pairwise {st : St} (hwf : WF st) (r : Nat) :
    List.Pairwise (· < ·) (getSlot st r) := by
  unfold getSlot
  cases hl : alookup st.slots r with
  | none => simp
  | some s =>
    simpa using hwf.2.2 (r, s) (mem_of_alookup_eq_some hl)

theorem wf_slot_nodup {st : St} (hwf : WF st) (r : Nat) :
    (getSlot st r).Nodup :=
  pairwise_lt_nodup (wf_slot_pairwise hwf r)

/-! ## Fold and update lemmas -/

theorem aupd_forall {β : Type} {P : β → Prop} {f : β → β}
    (hf : ∀ b, P b → P (f b)) {x : Nat} :
    ∀ {l : List (Nat × β)}, (∀ q ∈ l, P q.2) → ∀ q ∈ aupd f x l, P q.2 := by
  intro l
  induction l with
  | nil => intro _ q hq; simp [aupd] at hq
  | cons p ts ih =>
    obtain ⟨k, v⟩ := p
    intro h q hq
    by_cases hx : x = k
    · simp only [aupd, if_pos hx] at hq
      rcases List.mem_cons.mp hq with rfl | hq'
      · exact hf v (h (k, v) (List.mem_cons_self _ _))
      · exact ih (fun q' hq' => h q' (List.mem_cons_of_mem _ hq')) q hq'
    · simp only [aupd, if_neg hx] at hq
      rcases List.mem_cons.mp hq with rfl | hq'
      · exact h (k, v) (List.mem_cons_self _ _)
      · exact ih (fun q' hq' => h q' (List.mem_cons_of_mem _ hq')) q hq'

theorem foldl_aupd_map_fst {β γ : Type} (f : β → β) (key : γ → Nat) :
    ∀ (cs : List γ) (sl : List (Nat × β)),
    (cs.foldl (fun s c => aupd f (key c) s) sl).map Prod.fst = sl.map Prod.fst := by
  intro cs
  induction cs with
  | nil => intro sl; simp
  | cons c rest ih =>
    intro sl
    simp only [List.foldl_cons]
    rw [ih, map_fst_aupd]

theorem foldl_aupd_forall {β γ : Type} {P : β → Prop} {f : β → β}
    (hf : ∀ b, P b → P (f b)) (key : γ → Nat) :
    ∀ (cs : List γ) (sl : List (Nat × β)), (∀ q ∈ sl, P q.2) →
    ∀ q ∈ cs.foldl (fun s c => aupd f (key c) s) sl, P q.2 := by
  intro cs
  induction cs with
  | nil => intro sl h; simpa using h
  | cons c rest ih =>
    intro sl h
    simp only [List.foldl_cons]
    exact ih _ (aupd_forall hf h)

/-- Folding `aupd f` over a duplicate-free key list applies `f` exactly
once to the value under each listed key. -/
theorem foldl_aupd_nodup_lookup {β : Type} (f : β → β) :
    ∀ (ks : List Nat) (sl : List (Nat × β)) (x : Nat), ks.Nodup →
    alookup (ks.foldl (fun s k => aupd f k s) sl) x
      = if x ∈ ks then (alookup sl x).map f else alookup sl x := by
  intro ks
  induction ks with
  | nil => intro sl x _; simp
  | cons k rest ih =>
    intro sl x hnd
    rw [List.nodup_cons] at hnd
    simp only [List.foldl_cons]
    rw [ih _ x hnd.2]
    by_cases hx : x = k
    · subst hx
      simp [hnd.1, alookup_aupd_self]
    · by_cases hr : x ∈ rest
      · simp [hr, hx, alookup_aupd_ne _ _ _ hx]
      · simp [hr, hx, alookup_aupd_ne _ _ _ hx]

theorem setInsert_idem (x : Nat) : ∀ (l : List Nat),
    setInsert x (setInsert x l) = setInsert x l := by
  intro l
  induction l with
  | nil => simp [setInsert]
  | cons y ys ih =>
    by_cases h1 : x < y
    · simp [setInsert, h1, lt_irrefl]
    · by_cases h2 : x = y
      · simp [setInsert, h1, h2]
      · simp only [setInsert, if_neg h1, if_neg h2]
        simp [setInsert, h1, h2, ih]

theorem setErase_of_not_mem {x : Nat} : ∀ {l : List Nat}, x ∉ l → setErase x l = l := by
  intro l
  induction l with
  | nil => intro; rfl
  | cons y ys ih =>
    intro h
    rw [List.mem_cons] at h
    push_neg at h
    simp [setErase, h.1, ih h.2]

theorem setErase_idem {x : Nat} {l : List Nat} (hnd : l.Nodup) :
    setErase x (setErase x l) = setErase x l :=
  setErase_of_not_mem (not_mem_setErase_self hnd)

/-- Folding the per-connection `signal_connect(dst)` of the emitter copy
constructor: the value under key `r` gains `dst` iff some connection
targets `r`. -/
theorem foldl_insert_lookup (dst : Nat) :
    ∀ (cs : List Conn) (sl : List (Nat × List Nat)) (r : Nat),
    alookup (cs.foldl (fun s c => aupd (setInsert dst) c.dest s) sl) r
      = if r ∈ cs.map Conn.dest then (alookup sl r).map (setInsert dst)
        else alookup sl r := by
  intro cs
  induction cs with
  | nil => intro sl r; simp
  | cons c rest ih =>
    intro sl r
    simp only [List.foldl_cons]
    rw [ih]
    by_cases hx : r = c.dest
    · rw [hx, alookup_aupd_self]
      have hmem : c.dest ∈ (c :: rest).map Conn.dest := by simp
      rw [if_pos hmem]
      by_cases hr : c.dest ∈ rest.map Conn.dest
      · rw [if_pos hr, Option.map_map]
        cases alookup sl c.dest with
        | none => rfl
        | some s => simp [Function.comp, setInsert_idem]
      · rw [if_neg hr]
    · rw [alookup_aupd_ne _ _ _ hx]
      have hiff : r ∈ (c :: rest).map Conn.dest ↔ r ∈ rest.map Conn.dest := by
        rw [List.map_cons, List.mem_cons]
        constructor
        · rintro (h | h)
          · exact absurd h hx
          · exact h
        · exact Or.inr
      by_cases hr : r ∈ rest.map Conn.dest
      · rw [if_pos hr, if_pos (hiff.mpr hr)]
      · rw [if_neg hr, if_neg (fun hm => hr (hiff.mp hm))]

/-- Folding the per-connection `signal_disconnect(e)` of `disconnect_all`:
the value under key `r` loses `e` iff some connection targets `r`
(duplicate targets erase twice, a no-op on a duplicate-free set). -/
theorem foldl_erase_lookup (e : Nat) :
    ∀ (cs : List Conn) (sl : List (Nat × List Nat)) (r : Nat),
    (∀ q ∈ sl, q.2.Nodup) →
    alookup (cs.foldl (fun s c => aupd (setErase e) c.dest s) sl) r
      = if r ∈ cs.map Conn.dest then (alookup sl r).map (setErase e)
        else alookup sl r := by
  intro cs
  induction cs with
  | nil => intro sl r _; simp
  | cons c rest ih =>
    intro sl r hnd
    have hnd' : ∀ q ∈ aupd (setErase e) c.dest sl, q.2.Nodup :=
      aupd_forall (fun b hb => hb.sublist (setErase_sublist e b)) hnd
    simp only [List.foldl_cons]
    rw [ih _ _ hnd']
    by_cases hx : r = c.dest
    · rw [hx, alookup_aupd_self]
      have hmem : c.dest ∈ (c :: rest).map Conn.dest := by simp
      rw [if_pos hmem]
      by_cases hr : c.dest ∈ rest.map Conn.dest
      · rw [if_pos hr, Option.map_map]
        cases hl : alookup sl c.dest with
        | none => rfl
        | some s =>
          have hs : s.Nodup := hnd (c.dest, s) (mem_of_alookup_eq_some hl)
          simp [Function.comp, setErase_idem hs]
      · rw [if_neg hr]
    · rw [alookup_aupd_ne _ _ _ hx]
      have hiff : r ∈ (c :: rest).map Conn.dest ↔ r ∈ rest.map Conn.dest := by
        rw [List.map_cons, List.mem_cons]
        constructor
        · rintro (h | h)
          · exact absurd h hx
          · exact h
        · exact Or.inr
      by_cases hr : r ∈ rest.map Conn.dest
      · rw [if_pos hr, if_pos (hiff.mpr hr)]
      · rw [if_neg hr, if_neg (fun hm => hr (hiff.mp hm))]

theorem aerase_cons {β : Type} (x k : Nat) (v : β) (ts : List (Nat × β)) :
    aerase x ((k, v) :: ts) = if k = x then aerase x ts else (k, v) :: aerase x ts := by
  by_cases h : k = x <;> simp [aerase, List.filter_cons, h]

theorem alookup_aerase_self {β : Type} (x : Nat) (l : List (Nat × β)) :
    alookup (aerase x l) x = none := by
  induction l with
  | nil => rfl
  | cons p ts ih =>
    obtain ⟨k, v⟩ := p
    rw [aerase_cons]
    by_cases h : k = x
    · simpa [h] using ih
    · have hxk : ¬x = k := fun hh => h hh.symm
      rw [if_neg h]
      simp [alookup, hxk, ih]

theorem alookup_aerase_ne {β : Type} {x y : Nat} (hne : y ≠ x) (l : List (Nat × β)) :
    alookup (aerase x l) y = alookup l y := by
  induction l with
  | nil => rfl
  | cons p ts ih =>
    obtain ⟨k, v⟩ := p
    rw [aerase_cons]
    by_cases h : k = x
    · subst h
      simp [alookup, hne, ih]
    · rw [if_neg h]
      by_cases h2 : y = k
      · simp [alookup, h2]
      · simp [alookup, h2, ih]

theorem mem_map_fst_aerase {β : Type} {x a : Nat} {l : List (Nat × β)} :
    a ∈ (aerase x l).map Prod.fst ↔ a ∈ l.map Prod.fst ∧ a ≠ x := by
  unfold aerase
  constructor
  · intro h
    rcases List.mem_map.mp h with ⟨p, hp, rfl⟩
    have := List.of_mem_filter hp
    simp at this
    exact ⟨List.mem_map.mpr ⟨p, List.mem_of_mem_filter hp, rfl⟩, this⟩
  · rintro ⟨h, hne⟩
    rcases List.mem_map.mp h with ⟨p, hp, rfl⟩
    exact List.mem_map.mpr ⟨p, List.mem_filter.mpr ⟨hp, by simpa using hne⟩, rfl⟩

theorem map_fst_aerase_nodup {β : Type} {x : Nat} {l : List (Nat × β)}
    (h : (l.map Prod.fst).Nodup) : ((aerase x l).map Prod.fst).Nodup :=
  List.Nodup.sublist (List.Sublist.map Prod.fst (List.filter_sublist l)) h

theorem mem_foldl_setInsert {a : Nat} : ∀ (ks s0 : List Nat),
    a ∈ ks.foldl (fun s e => setInsert e s) s0 ↔ a ∈ ks ∨ a ∈ s0 := by
  intro ks
  induction ks with
  | nil => intro s0; simp
  | cons k rest ih =>
    intro s0
    simp only [List.foldl_cons]
    rw [ih, mem_setInsert]
    simp [List.mem_cons]
    tauto

theorem foldl_setInsert_chain : ∀ (ks s0 : List Nat),
    List.Chain' (· < ·) s0 →
    List.Chain' (· < ·) (ks.foldl (fun s e => setInsert e s) s0) := by
  intro ks
  induction ks with
  | nil => intro s0 h; simpa using h
  | cons k rest ih =>
    intro s0 h
    simp only [List.foldl_cons]
    exact ih _ (setInsert_chain h)

theorem setInsert_pairwise {x : Nat} {l : List Nat}
    (h : List.Pairwise (· < ·) l) : List.Pairwise (· < ·) (setInsert x l) :=
  List.chain'_iff_pairwise.mp (setInsert_chain (List.chain'_iff_pairwise.mpr h))

theorem setErase_pairwise {x : Nat} {l : List Nat}
    (h : List.Pairwise (· < ·) l) : List.Pairwise (· < ·) (setErase x l) :=
  List.chain'_iff_pairwise.mp (setErase_chain (List.chain'_iff_pairwise.mpr h))

theorem foldl_setInsert_pairwise (ks s0 : List Nat)
    (h : List.Pairwise (· < ·) s0) :
    List.Pairwise (· < ·) (ks.foldl (fun s e => setInsert e s) s0) :=
  List.chain'_iff_pairwise.mp
    (foldl_setInsert_chain ks s0 (List.chain'_iff_pairwise.mpr h))

/-! ## `removeFirst` (the scan of `_signal_bases::disconnect`) -/

theorem removeFirst_eq_none {r : Nat} : ∀ {l : List Conn},
    removeFirst r l = none ↔ ∀ c ∈ l, c.dest ≠ r := by
  intro l
  induction l with
  | nil => simp [removeFirst]
  | cons c cs ih =>
    by_cases h : c.dest = r
    · simp [removeFirst, h]
    · simp only [removeFirst, if_neg h, Option.map_eq_none']
      rw [ih]
      constructor
      · intro hall c' hc'
        rcases List.mem_cons.mp hc' with rfl | hm
        · exact h
        · exact hall c' hm
      · intro hall c' hc'
        exact hall c' (List.mem_cons_of_mem _ hc')

theorem removeFirst_eq_some {r : Nat} : ∀ {l l' : List Conn},
    removeFirst r l = some l' →
    ∃ l₁ c l₂, l = l₁ ++ c :: l₂ ∧ l' = l₁ ++ l₂ ∧ c.dest = r ∧
      ∀ c' ∈ l₁, c'.dest ≠ r := by
  intro l
  induction l with
  | nil => intro l' h; simp [removeFirst] at h
  | cons c cs ih =>
    intro l' h
    by_cases hc : c.dest = r
    · simp only [removeFirst, if_pos hc] at h
      have hl : cs = l' := Option.some.inj h
      subst hl
      exact ⟨[], c, cs, by simp, by simp, hc, by simp⟩
    · simp only [removeFirst, if_neg hc, Option.map_eq_some'] at h
      obtain ⟨l'', h1, rfl⟩ := h
      obtain ⟨l₁, c₀, l₂, he, he', hd, hl₁⟩ := ih h1
      refine ⟨c :: l₁, c₀, l₂, by simp [he], by simp [he'], hd, ?_⟩
      intro c' hc'
      rcases List.mem_cons.mp hc' with rfl | hm
      · exact hc
      · exact hl₁ c' hm

theorem removeFirst_of_split {r : Nat} (c : Conn) (hc : c.dest = r) :
    ∀ (l₁ l₂ : List Conn), (∀ c' ∈ l₁, c'.dest ≠ r) →
    removeFirst r (l₁ ++ c :: l₂) = some (l₁ ++ l₂) := by
  intro l₁
  induction l₁ with
  | nil => intro l₂ _; simp [removeFirst, hc]
  | cons c' cs ih =>
    intro l₂ h
    have hc' : c'.dest ≠ r := h c' (List.mem_cons_self _ _)
    have hrest := ih l₂ (fun x hx => h x (List.mem_cons_of_mem _ hx))
    simp only [List.cons_append, removeFirst, if_neg hc']
    rw [show cs.append (c :: l₂) = cs ++ c :: l₂ from rfl, hrest]
    rfl

theorem map_getD_of_isSome {α : Type} {o : Option (List α)} (f : List α → List α)
    (h : o.isSome) : (o.map f).getD [] = f (o.getD []) := by
  cases o with
  | none => simp at h
  | some l => simp

theorem liveE_iff_isSome {st : St} {e : Nat} : liveE st e ↔ (alookup st.sigs e).isSome :=
  alookup_isSome_iff_mem.symm

theorem liveR_iff_isSome {st : St} {r : Nat} : liveR st r ↔ (alookup st.slots r).isSome :=
  alookup_isSome_iff_mem.symm

/-! ## Well-formedness is preserved by every public operation -/

theorem wf_step (st : St) (op : Op) (hwf : WF st) : WF (step st op) := by
  obtain ⟨hs, hr, hch⟩ := hwf
  cases op with
  | newE e =>
    by_cases h : liveE st e
    · simpa [step, h] using ⟨hs, hr, hch⟩
    · simp only [step, if_neg h]
      refine ⟨?_, hr, hch⟩
      simp only [List.map_append, List.map_cons, List.map_nil]
      rw [List.nodup_append]
      exact ⟨hs, List.nodup_singleton e, by
        intro a ha hb
        simp at hb
        subst hb
        exact h ha⟩
  | newR r =>
    by_cases h : liveR st r
    · simpa [step, h] using ⟨hs, hr, hch⟩
    · simp only [step, if_neg h]
      refine ⟨hs, ?_, ?_⟩
      · simp only [List.map_append, List.map_cons, List.map_nil]
        rw [List.nodup_append]
        exact ⟨hr, List.nodup_singleton r, by
          intro a ha hb
          simp at hb
          subst hb
          exact h ha⟩
      · intro q hq
        rcases List.mem_append.mp hq with hq' | hq'
        · exact hch q hq'
        · simp at hq'
          subst hq'
          simp
  | connect e r f =>
    by_cases h : liveE st e ∧ liveR st r
    · simp only [step, if_pos h, connectOp]
      refine ⟨by rw [map_fst_aupd]; exact hs, by rw [map_fst_aupd]; exact hr, ?_⟩
      exact aupd_forall (fun b hb => setInsert_pairwise hb) hch
    · simpa [step, h] using ⟨hs, hr, hch⟩
  | disconnect e r =>
    by_cases h : liveE st e ∧ liveR st r
    · simp only [step, if_pos h, disconnectOp]
      cases hrem : removeFirst r (getSig st e) with
      | none => exact ⟨hs, hr, hch⟩
      | some l' =>
        refine ⟨by rw [map_fst_aupd]; exact hs, by rw [map_fst_aupd]; exact hr, ?_⟩
        exact aupd_forall (fun b hb => setErase_pairwise hb) hch
    · simpa [step, h] using ⟨hs, hr, hch⟩
  | disconnectAll e =>
    by_cases h : liveE st e
    · simp only [step, if_pos h, disconnectAllOp]
      refine ⟨by rw [map_fst_aupd]; exact hs, ?_, ?_⟩
      · rw [foldl_aupd_map_fst (setErase e) Conn.dest]; exact hr
      · exact foldl_aupd_forall (fun b hb => setErase_pairwise hb) Conn.dest _ _ hch
    · simpa [step, h] using ⟨hs, hr, hch⟩
  | emit e a => simpa [step] using ⟨hs, hr, hch⟩
  | copyE src dst =>
    by_cases h : liveE st src ∧ ¬liveE st dst
    · simp only [step, if_pos h, copyEOp]
      refine ⟨?_, ?_, ?_⟩
      · simp only [List.map_append, List.map_cons, List.map_nil]
        rw [List.nodup_append]
        exact ⟨hs, List.nodup_singleton dst, by
          intro a ha hb
          simp at hb
          subst hb
          exact h.2 ha⟩
      · rw [foldl_aupd_map_fst (setInsert dst) Conn.dest]; exact hr
      · exact foldl_aupd_forall (fun b hb => setInsert_pairwise hb) Conn.dest _ _ hch
    · simpa [step, h] using ⟨hs, hr, hch⟩
  | copyR src dst =>
    by_cases h : liveR st src ∧ ¬liveR st dst
    · simp only [step, if_pos h, copyROp]
      refine ⟨by rw [foldl_aupd_map_fst]; exact hs, ?_, ?_⟩
      · simp only [List.map_append, List.map_cons, List.map_nil]
        rw [List.nodup_append]
        exact ⟨hr, List.nodup_singleton dst, by
          intro a ha hb
          simp at hb
          subst hb
          exact h.2 ha⟩
      · intro q hq
        rcases List.mem_append.mp hq with hq' | hq'
        · exact hch q hq'
        · simp at hq'
          subst hq'
          exact foldl_setInsert_pairwise _ [] (by simp)
    · simpa [step, h] using ⟨hs, hr, hch⟩
  | destroyE e =>
    by_cases h : liveE st e
    · simp only [step, if_pos h, destroyEOp, disconnectAllOp]
      refine ⟨?_, ?_, ?_⟩
      · exact map_fst_aerase_nodup (by rw [map_fst_aupd]; exact hs)
      · rw [foldl_aupd_map_fst (setErase e) Conn.dest]; exact hr
      · exact foldl_aupd_forall (fun b hb => setErase_pairwise hb) Conn.dest _ _ hch
    · simpa [step, h] using ⟨hs, hr, hch⟩
  | destroyR r =>
    by_cases h : liveR st r
    · simp only [step, if_pos h, destroyROp]
      refine ⟨by rw [foldl_aupd_map_fst]; exact hs, ?_, ?_⟩
      · exact map_fst_aerase_nodup hr
      · intro q hq
        exact hch q (List.mem_of_mem_filter hq)
    · simpa [step, h] using ⟨hs, hr, hch⟩

/-! ## Characterization of each operation's effect on the graph -/

theorem connectOp_getSig {st : St} {e : Nat} (he : liveE st e) (r f x : Nat) :
    getSig (connectOp st e r f) x =
      if x = e then getSig st e ++ [⟨r, f⟩] else getSig st x := by
  by_cases hx : x = e
  · subst hx
    simp only [if_pos rfl, getSig, connectOp, alookup_aupd_self]
    exact map_getD_of_isSome _ (liveE_iff_isSome.mp he)
  · simp only [if_neg hx, getSig, connectOp, alookup_aupd_ne _ _ _ hx]

theorem connectOp_getSlot {st : St} {r : Nat} (hr : liveR st r) (e f x : Nat) :
    getSlot (connectOp st e r f) x =
      if x = r then setInsert e (getSlot st r) else getSlot st x := by
  by_cases hx : x = r
  · subst hx
    simp only [if_pos rfl, getSlot, connectOp, alookup_aupd_self]
    exact map_getD_of_isSome _ (liveR_iff_isSome.mp hr)
  · simp only [if_neg hx, getSlot, connectOp, alookup_aupd_ne _ _ _ hx]

theorem connectOp_liveE {st : St} {e r f x : Nat} :
    liveE (connectOp st e r f) x ↔ liveE st x := by
  simp [liveE, connectOp, map_fst_aupd]

theorem connectOp_liveR {st : St} {e r f x : Nat} :
    liveR (connectOp st e r f) x ↔ liveR st x := by
  simp [liveR, connectOp, map_fst_aupd]

theorem disconnectAllOp_getSig {st : St} {e : Nat} (he : liveE st e) (x : Nat) :
    getSig (disconnectAllOp st e) x = if x = e then [] else getSig st x := by
  by_cases hx : x = e
  · subst hx
    simp only [if_pos rfl, getSig, disconnectAllOp, alookup_aupd_self]
    exact map_getD_of_isSome _ (liveE_iff_isSome.mp he)
  · simp only [if_neg hx, getSig, disconnectAllOp, alookup_aupd_ne _ _ _ hx]

theorem disconnectAllOp_getSlot {st : St} (e : Nat)
    (hnd : ∀ q ∈ st.slots, q.2.Nodup) (x : Nat) :
    getSlot (disconnectAllOp st e) x =
      if x ∈ (getSig st e).map Conn.dest then setErase e (getSlot st x)
      else getSlot st x := by
  simp only [getSlot, disconnectAllOp]
  rw [foldl_erase_lookup e _ _ _ hnd]
  by_cases hx : x ∈ (getSig st e).map Conn.dest
  · rw [if_pos hx, if_pos hx]
    cases alookup st.slots x with
    | none => simp [setErase]
    | some s => simp
  · rw [if_neg hx, if_neg hx]

theorem disconnectAllOp_liveE {st : St} {e x : Nat} :
    liveE (disconnectAllOp st e) x ↔ liveE st x := by
  simp [liveE, disconnectAllOp, map_fst_aupd]

theorem disconnectAllOp_liveR {st : St} {e x : Nat} :
    liveR (disconnectAllOp st e) x ↔ liveR st x := by
  simp only [liveR, disconnectAllOp]
  rw [foldl_aupd_map_fst (setErase e) Conn.dest]

theorem destroyEOp_getSig {st : St} {e : Nat} (he : liveE st e) (x : Nat) :
    getSig (destroyEOp st e) x = if x = e then [] else getSig st x := by
  by_cases hx : x = e
  · subst hx
    simp [getSig, destroyEOp, alookup_aerase_self]
  · simp only [if_neg hx, getSig, destroyEOp, alookup_aerase_ne hx]
    simp only [disconnectAllOp, alookup_aupd_ne _ _ _ hx]

theorem destroyEOp_getSlot {st : St} (e : Nat)
    (hnd : ∀ q ∈ st.slots, q.2.Nodup) (x : Nat) :
    getSlot (destroyEOp st e) x =
      if x ∈ (getSig st e).map Conn.dest then setErase e (getSlot st x)
      else getSlot st x := by
  have : getSlot (destroyEOp st e) x = getSlot (disconnectAllOp st e) x := rfl
  rw [this, disconnectAllOp_getSlot e hnd x]

theorem destroyEOp_liveE {st : St} {e x : Nat} :
    liveE (destroyEOp st e) x ↔ liveE st x ∧ x ≠ e := by
  simp only [liveE, destroyEOp]
  rw [mem_map_fst_aerase]
  simp [disconnectAllOp, map_fst_aupd, liveE]

theorem destroyEOp_liveR {st : St} {e x : Nat} :
    liveR (destroyEOp st e) x ↔ liveR st x :=
  disconnectAllOp_liveR

theorem copyEOp_getSig {st : St} {dst : Nat} (hdst : ¬liveE st dst) (src x : Nat) :
    getSig (copyEOp st src dst) x =
      if x = dst then getSig st src else getSig st x := by
  have hnone : alookup st.sigs dst = none :=
    alookup_eq_none_of_not_mem hdst
  by_cases hx : x = dst
  · subst hx
    simp only [if_pos rfl, getSig, copyEOp]
    rw [alookup_append_right hnone]
    simp [alookup]
  · simp only [if_neg hx, getSig, copyEOp]
    cases hl : alookup st.sigs x with
    | none =>
      rw [alookup_append_right hl]
      simp [alookup, hx]
    | some l => rw [alookup_append_left hl]

theorem copyEOp_getSlot_mem {st : St} {src x : Nat} (dst : Nat)
    (hmem : x ∈ (getSig st src).map Conn.dest) (hx : liveR st x) :
    getSlot (copyEOp st src dst) x = setInsert dst (getSlot st x) := by
  simp only [getSlot, copyEOp]
  rw [foldl_insert_lookup, if_pos hmem]
  exact map_getD_of_isSome _ (liveR_iff_isSome.mp hx)

theorem copyEOp_getSlot_not {st : St} {src x : Nat} (dst : Nat)
    (hmem : x ∉ (getSig st src).map Conn.dest) :
    getSlot (copyEOp st src dst) x = getSlot st x := by
  simp only [getSlot, copyEOp]
  rw [foldl_insert_lookup, if_neg hmem]

theorem copyEOp_liveE {st : St} {src dst x : Nat} :
    liveE (copyEOp st src dst) x ↔ liveE st x ∨ x = dst := by
  simp [liveE, copyEOp]

theorem copyEOp_liveR {st : St} {src dst x : Nat} :
    liveR (copyEOp st src dst) x ↔ liveR st x := by
  simp only [liveR, copyEOp]
  rw [foldl_aupd_map_fst (setInsert dst) Conn.dest]

theorem copyROp_getSig {st : St} {src : Nat} (dst : Nat)
    (hnd : (getSlot st src).Nodup) (x : Nat) :
    getSig (copyROp st src dst) x =
      if x ∈ getSlot st src then slotDuplicateList src dst (getSig st x)
      else getSig st x := by
  simp only [getSig, copyROp]
  rw [foldl_aupd_nodup_lookup _ _ _ _ hnd]
  by_cases hx : x ∈ getSlot st src
  · rw [if_pos hx, if_pos hx]
    cases alookup st.sigs x with
    | none => simp [slotDuplicateList]
    | some l => simp
  · rw [if_neg hx, if_neg hx]

theorem copyROp_getSlot {st : St} {dst : Nat} (hdst : ¬liveR st dst) (src x : Nat) :
    getSlot (copyROp st src dst) x =
      if x = dst then (getSlot st src).foldl (fun s e => setInsert e s) []
      else getSlot st x := by
  have hnone : alookup st.slots dst = none :=
    alookup_eq_none_of_not_mem hdst
  by_cases hx : x = dst
  · subst hx
    simp only [if_pos rfl, getSlot, copyROp]
    rw [alookup_append_right hnone]
    simp [alookup]
  · simp only [if_neg hx, getSlot, copyROp]
    cases hl : alookup st.slots x with
    | none =>
      rw [alookup_append_right hl]
      simp [alookup, hx]
    | some l => rw [alookup_append_left hl]

theorem copyROp_liveE {st : St} {src dst x : Nat} :
    liveE (copyROp st src dst) x ↔ liveE st x := by
  simp only [liveE, copyROp]
  rw [foldl_aupd_map_fst]

theorem copyROp_liveR {st : St} {src dst x : Nat} :
    liveR (copyROp st src dst) x ↔ liveR st x ∨ x = dst := by
  simp [liveR, copyROp]

theorem destroyROp_getSig {st : St} {r : Nat} (hnd : (getSlot st r).Nodup) (x : Nat) :
    getSig (destroyROp st r) x =
      if x ∈ getSlot st r then slotDisconnectList r (getSig st x)
      else getSig st x := by
  simp only [getSig, destroyROp]
  rw [foldl_aupd_nodup_lookup _ _ _ _ hnd]
  by_cases hx : x ∈ getSlot st r
  · rw [if_pos hx, if_pos hx]
    cases alookup st.sigs x with
    | none => simp [slotDisconnectList]
    | some l => simp
  · rw [if_neg hx, if_neg hx]

theorem destroyROp_getSlot {st : St} (r x : Nat) :
    getSlot (destroyROp st r) x = if x = r then [] else getSlot st x := by
  by_cases hx : x = r
  · subst hx
    simp [getSlot, destroyROp, alookup_aerase_self]
  · simp only [if_neg hx, getSlot, destroyROp, alookup_aerase_ne hx]

theorem destroyROp_liveE {st : St} {r x : Nat} :
    liveE (destroyROp st r) x ↔ liveE st x := by
  simp only [liveE, destroyROp]
  rw [foldl_aupd_map_fst]

theorem destroyROp_liveR {st : St} {r x : Nat} :
    liveR (destroyROp st r) x ↔ liveR st x ∧ x ≠ r := by
  simp only [liveR, destroyROp]
  exact mem_map_fst_aerase

theorem newE_getSig {st : St} {e : Nat} (he : ¬liveE st e) (x : Nat) :
    getSig { st with sigs := st.sigs ++ [(e, [])] } x =
      if x = e then [] else getSig st x := by
  have hnone : alookup st.sigs e = none := alookup_eq_none_of_not_mem he
  by_cases hx : x = e
  · subst hx
    simp only [if_pos rfl, getSig]
    rw [alookup_append_right hnone]
    simp [alookup]
  · simp only [if_neg hx, getSig]
    cases hl : alookup st.sigs x with
    | none =>
      rw [alookup_append_right hl]
      simp [alookup, hx]
    | some l => rw [alookup_append_left hl]

theorem newR_getSlot {st : St} {r : Nat} (hr : ¬liveR st r) (x : Nat) :
    getSlot { st with slots := st.slots ++ [(r, [])] } x =
      if x = r then [] else getSlot st x := by
  have hnone : alookup st.slots r = none := alookup_eq_none_of_not_mem hr
  by_cases hx : x = r
  · subst hx
    simp only [if_pos rfl, getSlot]
    rw [alookup_append_right hnone]
    simp [alookup]
  · simp only [if_neg hx, getSlot]
    cases hl : alookup st.slots x with
    | none =>
      rw [alookup_append_right hl]
      simp [alookup, hx]
    | some l => rw [alookup_append_left hl]

/-! ## Invariant preservation, operation by operation -/

theorem inv_newE {st : St} {e : Nat} (hwf : WF st) (hinv : Inv st) (he : ¬liveE st e) :
    Inv { st with sigs := st.sigs ++ [(e, [])] } := by
  obtain ⟨hf, hb⟩ := hinv
  constructor
  · refine invFwd_of_forall ?_ ?_
    · intro x c hc
      rw [newE_getSig he] at hc
      by_cases hx : x = e
      · rw [if_pos hx] at hc; simp at hc
      · rw [if_neg hx] at hc
        obtain ⟨h1, h2⟩ := invFwd_apply hf hc
        exact ⟨h1, h2⟩
    · simp only [List.map_append, List.map_cons, List.map_nil]
      rw [List.nodup_append]
      exact ⟨hwf.1, List.nodup_singleton e, by
        intro a ha hb'
        simp at hb'
        subst hb'
        exact he ha⟩
  · refine invBwd_of_forall ?_ hwf.2.1
    intro q a ha
    obtain ⟨h1, ⟨c, hcm, hcd⟩⟩ := invBwd_apply hb ha
    have hae : a ≠ e := fun hh => he (hh ▸ h1)
    refine ⟨?_, c, ?_, hcd⟩
    · simp only [liveE, List.map_append]
      exact List.mem_append_left _ h1
    · rw [newE_getSig he, if_neg hae]
      exact hcm

theorem inv_newR {st : St} {r : Nat} (hwf : WF st) (hinv : Inv st) (hr : ¬liveR st r) :
    Inv { st with slots := st.slots ++ [(r, [])] } := by
  obtain ⟨hf, hb⟩ := hinv
  constructor
  · refine invFwd_of_forall ?_ hwf.1
    intro x c hc
    obtain ⟨h1, h2⟩ := invFwd_apply hf hc
    have hcr : c.dest ≠ r := fun hh => hr (hh ▸ h1)
    refine ⟨?_, ?_⟩
    · simp only [liveR, List.map_append]
      exact List.mem_append_left _ h1
    · rw [newR_getSlot hr, if_neg hcr]
      exact h2
  · refine invBwd_of_forall ?_ ?_
    · intro q a ha
      rw [newR_getSlot hr] at ha
      by_cases hq : q = r
      · rw [if_pos hq] at ha; simp at ha
      · rw [if_neg hq] at ha
        exact invBwd_apply hb ha
    · simp only [List.map_append, List.map_cons, List.map_nil]
      rw [List.nodup_append]
      exact ⟨hwf.2.1, List.nodup_singleton r, by
        intro a ha hb'
        simp at hb'
        subst hb'
        exact hr ha⟩

theorem inv_connectOp {st : St} {e r : Nat} (f : Nat) (hwf : WF st) (hinv : Inv st)
    (he : liveE st e) (hr : liveR st r) : Inv (connectOp st e r f) := by
  obtain ⟨hf, hb⟩ := hinv
  constructor
  · refine invFwd_of_forall ?_ (by simp only [connectOp]; rw [map_fst_aupd]; exact hwf.1)
    intro x c hc
    rw [connectOp_getSig he] at hc
    rw [connectOp_getSlot hr]
    by_cases hx : x = e
    · subst hx
      rw [if_pos rfl] at hc
      rcases List.mem_append.mp hc with hcm | hcm
      · obtain ⟨h1, h2⟩ := invFwd_apply hf hcm
        refine ⟨connectOp_liveR.mpr h1, ?_⟩
        by_cases hd : c.dest = r
        · rw [if_pos hd]
          exact mem_setInsert.mpr (Or.inl rfl)
        · rw [if_neg hd]
          exact h2
      · simp at hcm
        subst hcm
        simp only [if_pos rfl]
        exact ⟨connectOp_liveR.mpr hr, mem_setInsert.mpr (Or.inl rfl)⟩
    · rw [if_neg hx] at hc
      obtain ⟨h1, h2⟩ := invFwd_apply hf hc
      refine ⟨connectOp_liveR.mpr h1, ?_⟩
      by_cases hd : c.dest = r
      · rw [if_pos hd]
        exact mem_setInsert.mpr (Or.inr (hd ▸ h2))
      · rw [if_neg hd]
        exact h2
  · refine invBwd_of_forall ?_ (by simp only [connectOp]; rw [map_fst_aupd]; exact hwf.2.1)
    intro q a ha
    rw [connectOp_getSlot hr] at ha
    by_cases hq : q = r
    · subst hq
      rw [if_pos rfl] at ha
      rcases mem_setInsert.mp ha with rfl | ham
      · refine ⟨connectOp_liveE.mpr he, ⟨q, f⟩, ?_, rfl⟩
        rw [connectOp_getSig he, if_pos rfl]
        exact List.mem_append_right _ (List.mem_singleton.mpr rfl)
      · obtain ⟨h1, c, hcm, hcd⟩ := invBwd_apply hb ham
        refine ⟨connectOp_liveE.mpr h1, c, ?_, hcd⟩
        rw [connectOp_getSig he]
        by_cases hae : a = e
        · rw [if_pos hae]
          exact List.mem_append_left _ (hae ▸ hcm)
        · rw [if_neg hae]
          exact hcm
    · rw [if_neg hq] at ha
      obtain ⟨h1, c, hcm, hcd⟩ := invBwd_apply hb ha
      refine ⟨connectOp_liveE.mpr h1, c, ?_, hcd⟩
      rw [connectOp_getSig he]
      by_cases hae : a = e
      · rw [if_pos hae]
        exact List.mem_append_left _ (hae ▸ hcm)
      · rw [if_neg hae]
        exact hcm

theorem inv_disconnectAllOp {st : St} {e : Nat} (hwf : WF st) (hinv : Inv st)
    (he : liveE st e) : Inv (disconnectAllOp st e) := by
  obtain ⟨hf, hb⟩ := hinv
  have hndvals : ∀ q ∈ st.slots, q.2.Nodup := fun q hq => pairwise_lt_nodup (hwf.2.2 q hq)
  constructor
  · refine invFwd_of_forall ?_
      (by simp only [disconnectAllOp]; rw [map_fst_aupd]; exact hwf.1)
    intro x c hc
    rw [disconnectAllOp_getSig he] at hc
    by_cases hx : x = e
    · rw [if_pos hx] at hc; simp at hc
    · rw [if_neg hx] at hc
      obtain ⟨h1, h2⟩ := invFwd_apply hf hc
      refine ⟨disconnectAllOp_liveR.mpr h1, ?_⟩
      rw [disconnectAllOp_getSlot e hndvals]
      by_cases hd : c.dest ∈ (getSig st e).map Conn.dest
      · rw [if_pos hd]
        exact mem_setErase_of_ne h2 hx
      · rw [if_neg hd]
        exact h2
  · refine invBwd_of_forall ?_
      (by simp only [disconnectAllOp]
          rw [foldl_aupd_map_fst (setErase e) Conn.dest]; exact hwf.2.1)
    intro q a ha
    rw [disconnectAllOp_getSlot e hndvals] at ha
    by_cases hq : q ∈ (getSig st e).map Conn.dest
    · rw [if_pos hq] at ha
      have ham : a ∈ getSlot st q := mem_of_mem_setErase ha
      have hae : a ≠ e := by
        rintro rfl
        exact not_mem_setErase_self (wf_slot_nodup hwf q) ha
      obtain ⟨h1, c, hcm, hcd⟩ := invBwd_apply hb ham
      refine ⟨disconnectAllOp_liveE.mpr h1, c, ?_, hcd⟩
      rw [disconnectAllOp_getSig he, if_neg hae]
      exact hcm
    · rw [if_neg hq] at ha
      obtain ⟨h1, c, hcm, hcd⟩ := invBwd_apply hb ha
      have hae : a ≠ e := by
        rintro rfl
        exact hq (hcd ▸ List.mem_map_of_mem Conn.dest hcm)
      refine ⟨disconnectAllOp_liveE.mpr h1, c, ?_, hcd⟩
      rw [disconnectAllOp_getSig he, if_neg hae]
      exact hcm

theorem getSig_of_not_liveE {st : St} {x : Nat} (h : ¬liveE st x) : getSig st x = [] := by
  simp [getSig, alookup_eq_none_of_not_mem h]

theorem getSlot_of_not_liveR {st : St} {x : Nat} (h : ¬liveR st x) : getSlot st x = [] := by
  simp [getSlot, alookup_eq_none_of_not_mem h]

theorem inv_disconnectOp {st : St} {e r : Nat} (hwf : WF st) (hinv : Inv st)
    (he : liveE st e) (hr : liveR st r)
    (hok : ((getSig st e).filter (fun c => c.dest = r)).length ≤ 1) :
    Inv (disconnectOp st e r) := by
  obtain ⟨hf, hb⟩ := hinv
  cases hrem : removeFirst r (getSig st e) with
  | none => simpa only [disconnectOp, hrem] using ⟨hf, hb⟩
  | some l' =>
    obtain ⟨l₁, c₀, l₂, hsplit, hl', hc₀, hl₁⟩ := removeFirst_eq_some hrem
    have hl₂ : ∀ c ∈ l₂, c.dest ≠ r := by
      intro c hcm hcd
      have h1 : (l₁.filter (fun c => c.dest = r)) = [] := by
        rw [List.filter_eq_nil]
        intro c' hc'
        simpa using hl₁ c' hc'
      have h2 : c ∈ l₂.filter (fun c => c.dest = r) :=
        List.mem_filter.mpr ⟨hcm, by simpa using hcd⟩
      have : 2 ≤ ((getSig st e).filter (fun c => c.dest = r)).length := by
        rw [hsplit, List.filter_append, List.filter_cons, h1]
        simp only [hc₀, List.nil_append]
        have := List.length_pos.mpr (List.ne_nil_of_mem h2)
        simp
        omega
      omega
    have hmatchfree : ∀ c ∈ l', c.dest ≠ r := by
      intro c hcm
      rw [hl'] at hcm
      rcases List.mem_append.mp hcm with hm | hm
      · exact hl₁ c hm
      · exact hl₂ c hm
    simp only [disconnectOp, hrem]
    set st2 : St := ⟨aupd (fun _ => l') e st.sigs, aupd (setErase e) r st.slots⟩ with hst2
    have hgs_self : getSig st2 e = l' := by
      simp only [hst2, getSig, alookup_aupd_self]
      rw [map_getD_of_isSome _ (liveE_iff_isSome.mp he)]
    have hgs_ne : ∀ x, x ≠ e → getSig st2 x = getSig st x := by
      intro x hx
      simp only [hst2, getSig, alookup_aupd_ne _ _ _ hx]
    have hsl_self : getSlot st2 r = setErase e (getSlot st r) := by
      simp only [hst2, getSlot, alookup_aupd_self]
      rw [map_getD_of_isSome _ (liveR_iff_isSome.mp hr)]
    have hsl_ne : ∀ x, x ≠ r → getSlot st2 x = getSlot st x := by
      intro x hx
      simp only [hst2, getSlot, alookup_aupd_ne _ _ _ hx]
    have hliveE : ∀ x, liveE st2 x ↔ liveE st x := by
      intro x; simp [hst2, liveE, map_fst_aupd]
    have hliveR : ∀ x, liveR st2 x ↔ liveR st x := by
      intro x; simp [hst2, liveR, map_fst_aupd]
    have hsub : ∀ c ∈ l', c ∈ getSig st e := by
      intro c hcm
      rw [hl'] at hcm
      rw [hsplit]
      rcases List.mem_append.mp hcm with hm | hm
      · exact List.mem_append_left _ hm
      · exact List.mem_append_right _ (List.mem_cons_of_mem _ hm)
    constructor
    · refine invFwd_of_forall ?_ (by simp only [hst2]; rw [map_fst_aupd]; exact hwf.1)
      intro x c hc
      by_cases hx : x = e
      · subst hx
        rw [hgs_self] at hc
        obtain ⟨h1, h2⟩ := invFwd_apply hf (hsub c hc)
        refine ⟨(hliveR _).mpr h1, ?_⟩
        by_cases hd : c.dest = r
        · exact absurd hd (hmatchfree c hc)
        · rw [hsl_ne _ hd]
          exact h2
      · rw [hgs_ne _ hx] at hc
        obtain ⟨h1, h2⟩ := invFwd_apply hf hc
        refine ⟨(hliveR _).mpr h1, ?_⟩
        by_cases hd : c.dest = r
        · rw [hd, hsl_self]
          exact mem_setErase_of_ne (hd ▸ h2) hx
        · rw [hsl_ne _ hd]
          exact h2
    · refine invBwd_of_forall ?_ (by simp only [hst2]; rw [map_fst_aupd]; exact hwf.2.1)
      intro q a ha
      by_cases hq : q = r
      · subst hq
        rw [hsl_self] at ha
        have hae : a ≠ e := by
          rintro rfl
          exact not_mem_setErase_self (wf_slot_nodup hwf q) ha
        obtain ⟨h1, c, hcm, hcd⟩ := invBwd_apply hb (mem_of_mem_setErase ha)
        refine ⟨(hliveE _).mpr h1, c, ?_, hcd⟩
        rw [hgs_ne _ hae]
        exact hcm
      · rw [hsl_ne _ hq] at ha
        obtain ⟨h1, c, hcm, hcd⟩ := invBwd_apply hb ha
        refine ⟨(hliveE _).mpr h1, c, ?_, hcd⟩
        by_cases hae : a = e
        · subst hae
          rw [hgs_self, hl']
          rw [hsplit] at hcm
          rcases List.mem_append.mp hcm with hm | hm
          · exact List.mem_append_left _ hm
          · rcases List.mem_cons.mp hm with rfl | hm'
            · exact absurd (hc₀ ▸ hcd) (fun hh => hq hh.symm)
            · exact List.mem_append_right _ hm'
        · rw [hgs_ne _ hae]
          exact hcm

theorem inv_destroyEOp {st : St} {e : Nat} (hwf : WF st) (hinv : Inv st)
    (he : liveE st e) : Inv (destroyEOp st e) := by
  obtain ⟨hf, hb⟩ := hinv
  have hndvals : ∀ q ∈ st.slots, q.2.Nodup := fun q hq => pairwise_lt_nodup (hwf.2.2 q hq)
  constructor
  · refine invFwd_of_forall ?_
      (by simp only [destroyEOp, disconnectAllOp]
          exact map_fst_aerase_nodup (by rw [map_fst_aupd]; exact hwf.1))
    intro x c hc
    rw [destroyEOp_getSig he] at hc
    by_cases hx : x = e
    · rw [if_pos hx] at hc; simp at hc
    · rw [if_neg hx] at hc
      obtain ⟨h1, h2⟩ := invFwd_apply hf hc
      refine ⟨destroyEOp_liveR.mpr h1, ?_⟩
      rw [destroyEOp_getSlot e hndvals]
      by_cases hd : c.dest ∈ (getSig st e).map Conn.dest
      · rw [if_pos hd]
        exact mem_setErase_of_ne h2 hx
      · rw [if_neg hd]
        exact h2
  · refine invBwd_of_forall ?_
      (by simp only [destroyEOp, disconnectAllOp]
          rw [foldl_aupd_map_fst (setErase e) Conn.dest]; exact hwf.2.1)
    intro q a ha
    rw [destroyEOp_getSlot e hndvals] at ha
    by_cases hq : q ∈ (getSig st e).map Conn.dest
    · rw [if_pos hq] at ha
      have ham : a ∈ getSlot st q := mem_of_mem_setErase ha
      have hae : a ≠ e := by
        rintro rfl
        exact not_mem_setErase_self (wf_slot_nodup hwf q) ha
      obtain ⟨h1, c, hcm, hcd⟩ := invBwd_apply hb ham
      refine ⟨destroyEOp_liveE.mpr ⟨h1, hae⟩, c, ?_, hcd⟩
      rw [destroyEOp_getSig he, if_neg hae]
      exact hcm
    · rw [if_neg hq] at ha
      obtain ⟨h1, c, hcm, hcd⟩ := invBwd_apply hb ha
      have hae : a ≠ e := by
        rintro rfl
        exact hq (hcd ▸ List.mem_map_of_mem Conn.dest hcm)
      refine ⟨destroyEOp_liveE.mpr ⟨h1, hae⟩, c, ?_, hcd⟩
      rw [destroyEOp_getSig he, if_neg hae]
      exact hcm

theorem inv_copyEOp {st : St} {src dst : Nat} (hwf : WF st) (hinv : Inv st)
    (hsrc : liveE st src) (hdst : ¬liveE st dst) : Inv (copyEOp st src dst) := by
  obtain ⟨hf, hb⟩ := hinv
  constructor
  · refine invFwd_of_forall ?_
      (by simp only [copyEOp, List.map_append, List.map_cons, List.map_nil]
          rw [List.nodup_append]
          exact ⟨hwf.1, List.nodup_singleton dst, by
            intro a ha hb'
            simp at hb'
            subst hb'
            exact hdst ha⟩)
    intro x c hc
    rw [copyEOp_getSig hdst] at hc
    by_cases hx : x = dst
    · subst hx
      rw [if_pos rfl] at hc
      obtain ⟨h1, h2⟩ := invFwd_apply hf hc
      refine ⟨copyEOp_liveR.mpr h1, ?_⟩
      rw [copyEOp_getSlot_mem x (List.mem_map_of_mem Conn.dest hc) h1]
      exact mem_setInsert.mpr (Or.inl rfl)
    · rw [if_neg hx] at hc
      obtain ⟨h1, h2⟩ := invFwd_apply hf hc
      refine ⟨copyEOp_liveR.mpr h1, ?_⟩
      by_cases hd : c.dest ∈ (getSig st src).map Conn.dest
      · rw [copyEOp_getSlot_mem dst hd h1]
        exact mem_setInsert.mpr (Or.inr h2)
      · rw [copyEOp_getSlot_not dst hd]
        exact h2
  · refine invBwd_of_forall ?_
      (by simp only [copyEOp]
          rw [foldl_aupd_map_fst (setInsert dst) Conn.dest]; exact hwf.2.1)
    intro q a ha
    by_cases hlq : liveR st q
    · by_cases hq : q ∈ (getSig st src).map Conn.dest
      · rw [copyEOp_getSlot_mem dst hq hlq] at ha
        rcases mem_setInsert.mp ha with rfl | ham
        · obtain ⟨c, hcm, hcd⟩ := List.mem_map.mp hq
          refine ⟨copyEOp_liveE.mpr (Or.inr rfl), c, ?_, hcd⟩
          rw [copyEOp_getSig hdst, if_pos rfl]
          exact hcm
        · obtain ⟨h1, c, hcm, hcd⟩ := invBwd_apply hb ham
          have had : a ≠ dst := fun hh => hdst (hh ▸ h1)
          refine ⟨copyEOp_liveE.mpr (Or.inl h1), c, ?_, hcd⟩
          rw [copyEOp_getSig hdst, if_neg had]
          exact hcm
      · rw [copyEOp_getSlot_not dst hq] at ha
        obtain ⟨h1, c, hcm, hcd⟩ := invBwd_apply hb ha
        have had : a ≠ dst := fun hh => hdst (hh ▸ h1)
        refine ⟨copyEOp_liveE.mpr (Or.inl h1), c, ?_, hcd⟩
        rw [copyEOp_getSig hdst, if_neg had]
        exact hcm
    · exfalso
      have : ¬liveR (copyEOp st src dst) q := fun hh => hlq (copyEOp_liveR.mp hh)
      rw [getSlot_of_not_liveR this] at ha
      simp at ha

theorem mem_builtSet {a : Nat} {ks : List Nat} :
    a ∈ ks.foldl (fun s e => setInsert e s) [] ↔ a ∈ ks := by
  rw [mem_foldl_setInsert]
  simp

theorem inv_copyROp {st : St} {src dst : Nat} (hwf : WF st) (hinv : Inv st)
    (hsrc : liveR st src) (hdst : ¬liveR st dst) : Inv (copyROp st src dst) := by
  obtain ⟨hf, hb⟩ := hinv
  have hnd : (getSlot st src).Nodup := wf_slot_nodup hwf src
  constructor
  · refine invFwd_of_forall ?_
      (by simp only [copyROp]; rw [foldl_aupd_map_fst]; exact hwf.1)
    intro x c hc
    rw [copyROp_getSig dst hnd] at hc
    by_cases hx : x ∈ getSlot st src
    · rw [if_pos hx] at hc
      rcases List.mem_append.mp hc with hcm | hcm
      · obtain ⟨h1, h2⟩ := invFwd_apply hf hcm
        have hcd : c.dest ≠ dst := fun hh => hdst (hh ▸ h1)
        refine ⟨copyROp_liveR.mpr (Or.inl h1), ?_⟩
        rw [copyROp_getSlot hdst, if_neg hcd]
        exact h2
      · obtain ⟨c', hc', rfl⟩ := List.mem_map.mp hcm
        refine ⟨copyROp_liveR.mpr (Or.inr rfl), ?_⟩
        rw [copyROp_getSlot hdst, if_pos rfl]
        exact mem_builtSet.mpr hx
    · rw [if_neg hx] at hc
      obtain ⟨h1, h2⟩ := invFwd_apply hf hc
      have hcd : c.dest ≠ dst := fun hh => hdst (hh ▸ h1)
      refine ⟨copyROp_liveR.mpr (Or.inl h1), ?_⟩
      rw [copyROp_getSlot hdst, if_neg hcd]
      exact h2
  · refine invBwd_of_forall ?_
      (by simp only [copyROp, List.map_append, List.map_cons, List.map_nil]
          rw [List.nodup_append]
          exact ⟨hwf.2.1, List.nodup_singleton dst, by
            intro a ha hb'
            simp at hb'
            subst hb'
            exact hdst ha⟩)
    intro q a ha
    rw [copyROp_getSlot hdst] at ha
    by_cases hq : q = dst
    · rw [if_pos hq] at ha
      have ham : a ∈ getSlot st src := mem_builtSet.mp ha
      obtain ⟨h1, c, hcm, hcd⟩ := invBwd_apply hb ham
      refine ⟨copyROp_liveE.mpr h1, ⟨dst, c.fn⟩, ?_, hq.symm⟩
      rw [copyROp_getSig dst hnd, if_pos ham]
      refine List.mem_append_right _ ?_
      exact List.mem_map.mpr ⟨c, List.mem_filter.mpr ⟨hcm, by simpa using hcd⟩, rfl⟩
    · rw [if_neg hq] at ha
      obtain ⟨h1, c, hcm, hcd⟩ := invBwd_apply hb ha
      refine ⟨copyROp_liveE.mpr h1, c, ?_, hcd⟩
      rw [copyROp_getSig dst hnd]
      by_cases has : a ∈ getSlot st src
      · rw [if_pos has]
        exact List.mem_append_left _ hcm
      · rw [if_neg has]
        exact hcm

theorem inv_destroyROp {st : St} {r : Nat} (hwf : WF st) (hinv : Inv st)
    (hr : liveR st r) : Inv (destroyROp st r) := by
  obtain ⟨hf, hb⟩ := hinv
  have hnd : (getSlot st r).Nodup := wf_slot_nodup hwf r
  constructor
  · refine invFwd_of_forall ?_
      (by simp only [destroyROp]; rw [foldl_aupd_map_fst]; exact hwf.1)
    intro x c hc
    rw [destroyROp_getSig hnd] at hc
    by_cases hx : x ∈ getSlot st r
    · rw [if_pos hx] at hc
      have hcm : c ∈ getSig st x := List.mem_of_mem_filter hc
      have hcd : c.dest ≠ r := by
        have := List.of_mem_filter hc
        simpa [slotDisconnectList] using this
      obtain ⟨h1, h2⟩ := invFwd_apply hf hcm
      refine ⟨destroyROp_liveR.mpr ⟨h1, hcd⟩, ?_⟩
      rw [destroyROp_getSlot, if_neg hcd]
      exact h2
    · rw [if_neg hx] at hc
      obtain ⟨h1, h2⟩ := invFwd_apply hf hc
      have hcd : c.dest ≠ r := by
        rintro rfl
        exact hx h2
      refine ⟨destroyROp_liveR.mpr ⟨h1, hcd⟩, ?_⟩
      rw [destroyROp_getSlot, if_neg hcd]
      exact h2
  · refine invBwd_of_forall ?_
      (by simp only [destroyROp]; exact map_fst_aerase_nodup hwf.2.1)
    intro q a ha
    rw [destroyROp_getSlot] at ha
    by_cases hq : q = r
    · rw [if_pos hq] at ha; simp at ha
    · rw [if_neg hq] at ha
      obtain ⟨h1, c, hcm, hcd⟩ := invBwd_apply hb ha
      refine ⟨destroyROp_liveE.mpr h1, c, ?_, hcd⟩
      rw [destroyROp_getSig hnd]
      by_cases has : a ∈ getSlot st r
      · rw [if_pos has]
        refine List.mem_filter.mpr ⟨hcm, ?_⟩
        simp [slotDisconnectList]
        rintro rfl
        exact hq hcd.symm
      · rw [if_neg has]
        exact hcm

/-- The side condition under which `disconnect` preserves the invariant:
at most one connection of the emitter targets the receiver.  (The source's
`disconnect` erases the emitter from the receiver's `m_senders`
unconditionally after removing the first match, so a remaining duplicate
match breaks the symmetry.)  Every other operation is unconditional. -/
def DisconnectSafe (st : St) : Op → Prop
  | .disconnect e r => ((getSig st e).filter (fun c => c.dest = r)).length ≤ 1
  | _ => True

instance (st : St) (op : Op) : Decidable (DisconnectSafe st op) :=
  match op with
  | .newE _ => inferInstanceAs (Decidable True)
  | .newR _ => inferInstanceAs (Decidable True)
  | .connect _ _ _ => inferInstanceAs (Decidable True)
  | .disconnect e r => inferInstanceAs
      (Decidable (((getSig st e).filter (fun c => c.dest = r)).length ≤ 1))
  | .disconnectAll _ => inferInstanceAs (Decidable True)
  | .emit _ _ => inferInstanceAs (Decidable True)
  | .copyE _ _ => inferInstanceAs (Decidable True)
  | .copyR _ _ => inferInstanceAs (Decidable True)
  | .destroyE _ => inferInstanceAs (Decidable True)
  | .destroyR _ => inferInstanceAs (Decidable True)

theorem inv_step (st : St) (op : Op) (hwf : WF st) (hinv : Inv st)
    (hok : DisconnectSafe st op) : Inv (step st op) := by
  cases op with
  | newE e =>
    by_cases h : liveE st e
    · simpa [step, h] using hinv
    · simp only [step, if_neg h]
      exact inv_newE hwf hinv h
  | newR r =>
    by_cases h : liveR st r
    · simpa [step, h] using hinv
    · simp only [step, if_neg h]
      exact inv_newR hwf hinv h
  | connect e r f =>
    by_cases h : liveE st e ∧ liveR st r
    · simp only [step, if_pos h]
      exact inv_connectOp f hwf hinv h.1 h.2
    · simpa [step, h] using hinv
  | disconnect e r =>
    by_cases h : liveE st e ∧ liveR st r
    · simp only [step, if_pos h]
      exact inv_disconnectOp hwf hinv h.1 h.2 hok
    · simpa [step, h] using hinv
  | disconnectAll e =>
    by_cases h : liveE st e
    · simp only [step, if_pos h]
      exact inv_disconnectAllOp hwf hinv h
    · simpa [step, h] using hinv
  | emit e a => simpa [step] using hinv
  | copyE src dst =>
    by_cases h : liveE st src ∧ ¬liveE st dst
    · simp only [step, if_pos h]
      exact inv_copyEOp hwf hinv h.1 h.2
    · simpa [step, h] using hinv
  | copyR src dst =>
    by_cases h : liveR st src ∧ ¬liveR st dst
    · simp only [step, if_pos h]
      exact inv_copyROp hwf hinv h.1 h.2
    · simpa [step, h] using hinv
  | destroyE e =>
    by_cases h : liveE st e
    · simp only [step, if_pos h]
      exact inv_destroyEOp hwf hinv h
    · simpa [step, h] using hinv
  | destroyR r =>
    by_cases h : liveR st r
    · simp only [step, if_pos h]
      exact inv_destroyROp hwf hinv h
    · simpa [step, h] using hinv

/-! ## The `emit` loop at iterator level, with reentrant callables

`signals::emit` walks `m_connected_slots` with a `std::list`
const_iterator, capturing `itNext` before invoking the current node's
callable.  A callable may re-enter the same signal and call `disconnect`,
which `delete`s a node and erases it from the list.  To settle what that
does to the traversal, this second model keeps the node identities (the
heap addresses iterators hold). -/

/-- A `_connection_bases` heap node during `emit`: `nid` is the node's
address (what an iterator refers to), `dest` and `fn` as in `Conn`. -/
structure NConn where
  nid : Nat
  dest : Nat
  fn : Nat
deriving DecidableEq, Repr

/-- What a bound callable does when invoked: nothing, or re-enter the
emitting signal and call `disconnect(r)` on it. -/
inductive Act
  | pass
  | disc (r : Nat)
deriving DecidableEq, Repr

/-- The effect of `_signal_bases::disconnect(r)` on the emitting signal's
own list when called from inside a callback: `delete` and erase the first
node whose `getdest()` equals `r` (no-op when none matches; the
`signal_disconnect` side effect touches only the receiver's sender set
and is invisible to the traversal). -/
def removeFirstN (r : Nat) : List NConn → List NConn
  | [] => []
  | x :: cs => if x.dest = r then cs else x :: removeFirstN r cs

def applyAct (a : Act) (l : List NConn) : List NConn :=
  match a with
  | .pass => l
  | .disc r => removeFirstN r l

/-- The address of the node after node `i` (what `itNext = it; ++itNext`
captures), or `none` when `i` is the last node. -/
def nextOf (i : Nat) : List NConn → Option Nat
  | [] => none
  | x :: cs => if x.nid = i then cs.head?.map NConn.nid else nextOf i cs

/-- Outcome of an `emit` traversal: a clean run with its invocation trace
and final list, a freed-node access (undefined behaviour in C++), or fuel
exhaustion (a model artefact; `emitR` always supplies enough fuel). -/
inductive ERes
  | ok (trace : List (Nat × Nat × Nat)) (final : List NConn)
  | corrupt
  | fuelOut
deriving DecidableEq, Repr

/-- The `while` loop of `signals::emit(args...)`: `it` holds the address of
the current node (`none` = `itEnd`); `itNext` is captured, then
`(*it)->emit(args...)` runs `(m_pobject->*m_pmemfun)(args...)`, whose
action may erase nodes; the loop resumes at the captured address.
Resuming at an address that is no longer in the list dereferences a freed
node (`it != itEnd` on an invalidated iterator), which is `corrupt`. -/
def emitGo (prog : Nat → Act) (a : Nat) : Nat → Option Nat → List NConn → ERes
  | _, none, l => .ok [] l
  | 0, some _, _ => .fuelOut
  | fuel + 1, some i, l =>
    match l.find? (fun x => x.nid = i) with
    | none => .corrupt
    | some c =>
      match emitGo prog a fuel (nextOf i l) (applyAct (prog c.fn) l) with
      | .ok tr fin => .ok ((c.dest, c.fn, a) :: tr) fin
      | e => e

/-- Model of `signals::emit(args...)` on a list of live nodes: start at the first
node with fuel for one iteration per node (the traversal only ever moves
forward, so this is enough). -/
def emitR (prog : Nat → Act) (a : Nat) (l : List NConn) : ERes :=
  emitGo prog a l.length (l.head?.map NConn.nid) l

theorem find?_nid_split {c : NConn} {l₂ : List NConn} :
    ∀ {l₁ : List NConn}, (∀ x ∈ l₁, x.nid ≠ c.nid) →
    (l₁ ++ c :: l₂).find? (fun x => x.nid = c.nid) = some c := by
  intro l₁
  induction l₁ with
  | nil =>
    intro
    rw [List.nil_append, List.find?_cons_of_pos _ (by simp)]
  | cons y ys ih =>
    intro h
    have hy : y.nid ≠ c.nid := h y (List.mem_cons_self _ _)
    rw [List.cons_append, List.find?_cons_of_neg _ (by simpa using hy)]
    exact ih (fun x hx => h x (List.mem_cons_of_mem _ hx))

theorem nextOf_split {c : NConn} {l₂ : List NConn} :
    ∀ {l₁ : List NConn}, (∀ x ∈ l₁, x.nid ≠ c.nid) →
    nextOf c.nid (l₁ ++ c :: l₂) = l₂.head?.map NConn.nid := by
  intro l₁
  induction l₁ with
  | nil =>
    intro
    simp [nextOf]
  | cons y ys ih =>
    intro h
    have hy : y.nid ≠ c.nid := h y (List.mem_cons_self _ _)
    have hys := ih (fun x hx => h x (List.mem_cons_of_mem _ hx))
    rw [List.cons_append,
      show nextOf c.nid (y :: (ys ++ c :: l₂))
        = if y.nid = c.nid then ((ys ++ c :: l₂).head?.map NConn.nid)
          else nextOf c.nid (ys ++ c :: l₂) from rfl,
      if_neg hy, hys]

theorem removeFirstN_split {r : Nat} {c : NConn} (hc : c.dest = r) :
    ∀ (l₁ l₂ : List NConn), (∀ x ∈ l₁, x.dest ≠ r) →
    removeFirstN r (l₁ ++ c :: l₂) = l₁ ++ l₂ := by
  intro l₁
  induction l₁ with
  | nil => intro l₂ _; simp [removeFirstN, hc]
  | cons y ys ih =>
    intro l₂ h
    have hy : y.dest ≠ r := h y (List.mem_cons_self _ _)
    simp only [List.cons_append, removeFirstN, if_neg hy]
    rw [show ys.append (c :: l₂) = ys ++ c :: l₂ from rfl,
      ih l₂ (fun x hx => h x (List.mem_cons_of_mem _ hx))]

theorem nodup_split_key (f : NConn → Nat) {l₁ : List NConn} {c : NConn} {l₂ : List NConn}
    (h : ((l₁ ++ c :: l₂).map f).Nodup) : ∀ x ∈ l₁, f x ≠ f c := by
  intro x hx heq
  rw [List.map_append, List.nodup_append] at h
  exact h.2.2 (List.mem_map_of_mem f hx) (by simp [heq])

/-- Traversal with no graph mutation: starting anywhere in the list, the
walk visits the remaining nodes once each, in order, and leaves the list
unchanged. -/
theorem emitGo_pass (prog : Nat → Act) (a : Nat) :
    ∀ (rest pre : List NConn) (fuel : Nat),
    (((pre ++ rest).map NConn.nid).Nodup) →
    (∀ c ∈ rest, prog c.fn = Act.pass) →
    rest.length ≤ fuel →
    emitGo prog a fuel (rest.head?.map NConn.nid) (pre ++ rest)
      = ERes.ok (rest.map (fun c => (c.dest, c.fn, a))) (pre ++ rest) := by
  intro rest
  induction rest with
  | nil =>
    intro pre fuel _ _ _
    simp [emitGo]
  | cons c rest' ih =>
    intro pre fuel hnd hpass hfuel
    cases fuel with
    | zero => simp at hfuel
    | succ f =>
      have hne : ∀ x ∈ pre, x.nid ≠ c.nid := nodup_split_key NConn.nid hnd
      have hstep : (pre ++ c :: rest').find? (fun x => x.nid = c.nid) = some c :=
        find?_nid_split hne
      have hnext : nextOf c.nid (pre ++ c :: rest') = rest'.head?.map NConn.nid :=
        nextOf_split hne
      have hpc : prog c.fn = Act.pass := hpass c (List.mem_cons_self _ _)
      have hrec := ih (pre ++ [c]) f
        (by rw [List.append_assoc]; simpa using hnd)
        (fun x hx => hpass x (List.mem_cons_of_mem _ hx))
        (by simp at hfuel ⊢; omega)
      rw [List.append_assoc] at hrec
      simp only [List.singleton_append] at hrec
      rw [show (Option.map NConn.nid ((c :: rest').head?)) = some c.nid from rfl]
      rw [show emitGo prog a (f + 1) (some c.nid) (pre ++ c :: rest')
            = match (pre ++ c :: rest').find? (fun x => x.nid = c.nid) with
              | none => ERes.corrupt
              | some cc =>
                match emitGo prog a f (nextOf c.nid (pre ++ c :: rest'))
                    (applyAct (prog cc.fn) (pre ++ c :: rest')) with
                | .ok tr fin => .ok ((cc.dest, cc.fn, a) :: tr) fin
                | e => e
          from rfl]
      rw [hstep]
      simp only [hnext, hpc, applyAct]
      rw [hrec]
      rfl

/-- Traversal in which each invoked callable either does nothing or
disconnects its own receiver (all receivers distinct): capturing `itNext`
before the invocation makes the self-removal harmless, every node is
visited once in order, and the final list keeps exactly the
non-disconnecting nodes. -/
theorem emitGo_selfdisc (prog : Nat → Act) (a : Nat) :
    ∀ (rest pre : List NConn) (fuel : Nat),
    (((pre ++ rest).map NConn.nid).Nodup) →
    (((pre ++ rest).map NConn.dest).Nodup) →
    (∀ c ∈ rest, prog c.fn = Act.pass ∨ prog c.fn = Act.disc c.dest) →
    rest.length ≤ fuel →
    emitGo prog a fuel (rest.head?.map NConn.nid) (pre ++ rest)
      = ERes.ok (rest.map (fun c => (c.dest, c.fn, a)))
          (pre ++ rest.filter (fun c => decide (prog c.fn = Act.pass))) := by
  intro rest
  induction rest with
  | nil =>
    intro pre fuel _ _ _ _
    simp [emitGo]
  | cons c rest' ih =>
    intro pre fuel hnid hdest hact hfuel
    cases fuel with
    | zero => simp at hfuel
    | succ f =>
      have hne : ∀ x ∈ pre, x.nid ≠ c.nid := nodup_split_key NConn.nid hnid
      have hstep : (pre ++ c :: rest').find? (fun x => x.nid = c.nid) = some c :=
        find?_nid_split hne
      have hnext : nextOf c.nid (pre ++ c :: rest') = rest'.head?.map NConn.nid :=
        nextOf_split hne
      rw [show (Option.map NConn.nid ((c :: rest').head?)) = some c.nid from rfl]
      rw [show emitGo prog a (f + 1) (some c.nid) (pre ++ c :: rest')
            = match (pre ++ c :: rest').find? (fun x => x.nid = c.nid) with
              | none => ERes.corrupt
              | some cc =>
                match emitGo prog a f (nextOf c.nid (pre ++ c :: rest'))
                    (applyAct (prog cc.fn) (pre ++ c :: rest')) with
                | .ok tr fin => .ok ((cc.dest, cc.fn, a) :: tr) fin
                | e => e
          from rfl]
      rw [hstep]
      rcases hact c (List.mem_cons_self _ _) with hpc | hpc
      · have hrec := ih (pre ++ [c]) f
          (by rw [List.append_assoc]; simpa using hnid)
          (by rw [List.append_assoc]; simpa using hdest)
          (fun x hx => hact x (List.mem_cons_of_mem _ hx))
          (by simp at hfuel ⊢; omega)
        simp only [List.append_assoc, List.singleton_append] at hrec
        simp only [hnext, hpc, applyAct]
        rw [hrec]
        simp [List.filter_cons, hpc]
      · have hpre : ∀ x ∈ pre, x.dest ≠ c.dest := nodup_split_key NConn.dest hdest
        have hrem : removeFirstN c.dest (pre ++ c :: rest') = pre ++ rest' :=
          removeFirstN_split rfl pre rest' hpre
        have hsub : List.Sublist (pre ++ rest') (pre ++ c :: rest') :=
          (List.sublist_cons_self c rest').append_left pre
        have hrec := ih pre f
          (List.Nodup.sublist (hsub.map NConn.nid) hnid)
          (List.Nodup.sublist (hsub.map NConn.dest) hdest)
          (fun x hx => hact x (List.mem_cons_of_mem _ hx))
          (by simp at hfuel ⊢; omega)
        simp only [hnext, hpc, applyAct]
        rw [hrem, hrec]
        have hfc : (decide (prog c.fn = Act.pass)) = false := by
          rw [hpc]; simp
        simp [List.filter_cons, hfc]

/-- Running `emit` on a list of distinct nodes whose callables do not touch the
graph: each connection's callable runs exactly once, with the given
argument, in list order, and the connection list is unchanged. -/
theorem emitR_pass (prog : Nat → Act) (a : Nat) (l : List NConn)
    (hnid : (l.map NConn.nid).Nodup) (hpass : ∀ c ∈ l, prog c.fn = Act.pass) :
    emitR prog a l = ERes.ok (l.map (fun c => (c.dest, c.fn, a))) l := by
  have h := emitGo_pass prog a l [] l.length (by simpa using hnid) hpass (le_refl _)
  simpa [emitR] using h

/-- Running `emit` where each callable either does nothing or disconnects its own
receiver (receivers pairwise distinct): dispatch completes, every
connection is invoked exactly once in order, and the final list keeps
exactly the non-disconnecting connections. -/
theorem emitR_selfdisc (prog : Nat → Act) (a : Nat) (l : List NConn)
    (hnid : (l.map NConn.nid).Nodup) (hdest : (l.map NConn.dest).Nodup)
    (hact : ∀ c ∈ l, prog c.fn = Act.pass ∨ prog c.fn = Act.disc c.dest) :
    emitR prog a l = ERes.ok (l.map (fun c => (c.dest, c.fn, a)))
      (l.filter (fun c => decide (prog c.fn = Act.pass))) := by
  have h := emitGo_selfdisc prog a l [] l.length
    (by simpa using hnid) (by simpa using hdest) hact (le_refl _)
  simpa [emitR] using h

/-! ## Further helpers for the claim theorems -/

/-- Model of `_signal_bases::slot_duplicate(oldtarget, newtarget)` as an
operation on the whole graph: it mutates only this emitter's
`m_connected_slots`; the method body contains no `signal_connect`, so the
receiver tables are untouched. -/
def slotDuplicateOp (st : St) (e old new : Nat) : St :=
  { st with sigs := aupd (slotDuplicateList old new) e st.sigs }

theorem disconnect_filter_ne (st : St) (e r s : Nat) (hne : s ≠ r) :
    (getSig (step st (Op.disconnect e r)) e).filter (fun c => c.dest = s)
      = (getSig st e).filter (fun c => c.dest = s) := by
  by_cases h : liveE st e ∧ liveR st r
  · simp only [step, if_pos h]
    cases hrem : removeFirst r (getSig st e) with
    | none => simp [disconnectOp, hrem]
    | some l2 =>
      simp only [disconnectOp, hrem]
      have hg : getSig ⟨aupd (fun _ => l2) e st.sigs, aupd (setErase e) r st.slots⟩ e
          = l2 := by
        simp only [getSig, alookup_aupd_self]
        rw [map_getD_of_isSome _ (liveE_iff_isSome.mp h.1)]
      rw [hg]
      obtain ⟨l₁, c₀, l₂, hsplit, hl2, hc₀, _⟩ := removeFirst_eq_some hrem
      have hcs : (decide (c₀.dest = s)) = false := by
        rw [hc₀]
        exact decide_eq_false (Ne.symm hne)
      rw [hl2, hsplit, List.filter_append, List.filter_append, List.filter_cons, hcs]
      simp
  · simp [step, h]

/-! ## The claims -/

/-- Claim C1: for every emitter whose connection list holds `N ≥ 0`
connections, `emit(args...)` invokes each connection's bound callable
exactly once, with the given arguments, in subscription (list) order.
Formalised on the iterator-level model: for a list of distinct nodes whose
callables leave the graph alone, the traversal produces exactly one
invocation `(m_pobject, m_pmemfun, args)` per connection, in list order,
and leaves the connection list unchanged. -/
theorem claim1_emit_each_once_in_order (prog : Nat → Act) (a : Nat) (l : List NConn)
    (hnid : (l.map NConn.nid).Nodup) (hpass : ∀ c ∈ l, prog c.fn = Act.pass) :
    emitR prog a l = ERes.ok (l.map (fun c => (c.dest, c.fn, a))) l :=
  emitR_pass prog a l hnid hpass

/-- Example connection list for C1: three connections, a duplicate
receiver among them. -/
def exL1 : List NConn := [⟨0, 1, 5⟩, ⟨1, 2, 6⟩, ⟨2, 1, 5⟩]

/-- Witness for C1 at a concrete input. -/
theorem claim1_witness :
    emitR (fun _ => Act.pass) 42 exL1
      = ERes.ok (exL1.map (fun c => (c.dest, c.fn, 42))) exL1 :=
  claim1_emit_each_once_in_order (fun _ => Act.pass) 42 exL1 (by decide)
    (fun c _ => rfl)

/-- Counterexample to claim C2 as stated: from the empty graph, create an
emitter and a receiver, connect them twice, and call `disconnect` once.
`disconnect` removes the first matching connection but unconditionally
erases the emitter from the receiver's `m_senders`, so the second
(still-live) connection is left with no back-reference: the symmetric
cross-reference relation is broken after a public operation. -/
theorem claim2_cex :
    ¬ Inv (run St.empty
      [Op.newE 0, Op.newR 1, Op.connect 0 1 5, Op.connect 0 1 5,
        Op.disconnect 0 1]) := by
  decide

/-- Claim C2, amended: after every public operation the cross-reference
relation stays symmetric, provided a `disconnect` is only issued when at
most one connection of that emitter targets the receiver (with duplicate
connections present, `disconnect` breaks the relation).  Well-formedness
(unique identities, sorted sender sets) is preserved alongside. -/
theorem claim2_sym_invariant_amended (st : St) (op : Op) (hwf : WF st)
    (hinv : Inv st) (hok : DisconnectSafe st op) :
    WF (step st op) ∧ Inv (step st op) :=
  ⟨wf_step st op hwf, inv_step st op hwf hinv hok⟩

/-- Witness for the amended C2: a `disconnect` of the only connection. -/
theorem claim2_witness :
    WF (step (run St.empty [Op.newE 0, Op.newR 1, Op.connect 0 1 5])
        (Op.disconnect 0 1)) ∧
    Inv (step (run St.empty [Op.newE 0, Op.newR 1, Op.connect 0 1 5])
        (Op.disconnect 0 1)) :=
  claim2_sym_invariant_amended _ _ (by decide) (by decide) (by decide)

/-- Counterexample to claim C3 as stated: two connections; the first
connection's callable disconnects the *second* (not-yet-visited)
connection.  `disconnect` `delete`s that node, but `emit` has already
captured it as `itNext`, so the loop resumes at a freed node — the
traversal is corrupted (undefined behaviour in C++), refuting "a callable
that disconnects ... any other Connection of the same emitter (including
ones not yet visited) does not corrupt dispatch". -/
theorem claim3_cex :
    emitR (fun f => if f = 100 then Act.disc 11 else Act.pass) 7
      [⟨0, 10, 100⟩, ⟨1, 11, 101⟩] = ERes.corrupt := by
  decide

/-- Claim C3, amended: a callable that disconnects the connection
currently being invoked (self-disconnect; receivers pairwise distinct so
the first match is the current node) does not corrupt dispatch: every
connection is still invoked exactly once, in order, the final list keeps
exactly the non-disconnecting connections, and a subsequent `emit` on the
remaining connections behaves correctly.  Disconnecting the connection
the loop has already captured as next is not tolerated (see the
counterexample). -/
theorem claim3_self_disconnect_amended (prog : Nat → Act) (a b : Nat)
    (l : List NConn) (hnid : (l.map NConn.nid).Nodup)
    (hdest : (l.map NConn.dest).Nodup)
    (hact : ∀ c ∈ l, prog c.fn = Act.pass ∨ prog c.fn = Act.disc c.dest) :
    emitR prog a l = ERes.ok (l.map (fun c => (c.dest, c.fn, a)))
      (l.filter (fun c => decide (prog c.fn = Act.pass))) ∧
    emitR prog b (l.filter (fun c => decide (prog c.fn = Act.pass)))
      = ERes.ok ((l.filter (fun c => decide (prog c.fn = Act.pass))).map
          (fun c => (c.dest, c.fn, b)))
        (l.filter (fun c => decide (prog c.fn = Act.pass))) := by
  refine ⟨emitR_selfdisc prog a l hnid hdest hact, ?_⟩
  refine emitR_pass prog b _ ?_ ?_
  · exact List.Nodup.sublist ((List.filter_sublist l).map NConn.nid) hnid
  · intro c hc
    have := List.of_mem_filter hc
    simpa using this

/-- Example connection list for C3's witness: connection `A` (to receiver
1) self-disconnects, `B` (to receiver 2) does nothing. -/
def exL3 : List NConn := [⟨0, 1, 100⟩, ⟨1, 2, 101⟩]

/-- Example callable behaviour for C3's witness. -/
def exProg3 : Nat → Act := fun f => if f = 100 then Act.disc 1 else Act.pass

/-- Witness for the amended C3: both connections invoked; the second emit
sees only `B`. -/
theorem claim3_witness :
    emitR exProg3 5 exL3
      = ERes.ok (exL3.map (fun c => (c.dest, c.fn, 5)))
        (exL3.filter (fun c => decide (exProg3 c.fn = Act.pass))) ∧
    emitR exProg3 6 (exL3.filter (fun c => decide (exProg3 c.fn = Act.pass)))
      = ERes.ok ((exL3.filter (fun c => decide (exProg3 c.fn = Act.pass))).map
          (fun c => (c.dest, c.fn, 6)))
        (exL3.filter (fun c => decide (exProg3 c.fn = Act.pass))) :=
  claim3_self_disconnect_amended exProg3 5 6 exL3 (by decide) (by decide)
    (by decide)

/-- Claim C4: `disconnect(receiver)` removes exactly the first connection
in list order whose target equals the receiver — later duplicates stay in
place — and calls the receiver's `signal_disconnect` (erasing the emitter
from its `m_senders`); no other emitter's list and no other receiver's
set changes. -/
theorem claim4_disconnect_first_match (st : St) (e r : Nat)
    (l₁ l₂ : List Conn) (c : Conn) (he : liveE st e) (hr : liveR st r)
    (hsplit : getSig st e = l₁ ++ c :: l₂) (hc : c.dest = r)
    (hl₁ : ∀ x ∈ l₁, x.dest ≠ r) :
    getSig (step st (Op.disconnect e r)) e = l₁ ++ l₂ ∧
    getSlot (step st (Op.disconnect e r)) r = setErase e (getSlot st r) ∧
    (∀ x, x ≠ e → getSig (step st (Op.disconnect e r)) x = getSig st x) ∧
    (∀ x, x ≠ r → getSlot (step st (Op.disconnect e r)) x = getSlot st x) := by
  have hguard : liveE st e ∧ liveR st r := ⟨he, hr⟩
  have hrem : removeFirst r (getSig st e) = some (l₁ ++ l₂) := by
    rw [hsplit]
    exact removeFirst_of_split c hc l₁ l₂ hl₁
  simp only [step, if_pos hguard, disconnectOp, hrem]
  refine ⟨?_, ?_, ?_, ?_⟩
  · simp only [getSig, alookup_aupd_self]
    rw [map_getD_of_isSome _ (liveE_iff_isSome.mp he)]
  · simp only [getSlot, alookup_aupd_self]
    rw [map_getD_of_isSome _ (liveR_iff_isSome.mp hr)]
  · intro x hx
    simp only [getSig, alookup_aupd_ne _ _ _ hx]
  · intro x hx
    simp only [getSlot, alookup_aupd_ne _ _ _ hx]

/-- Example graph for C4: emitter 0 holds connections to receiver 1,
receiver 2, receiver 1 again, in that order. -/
def exDup : St := run St.empty
  [Op.newE 0, Op.newR 1, Op.newR 2, Op.connect 0 1 7, Op.connect 0 2 8,
    Op.connect 0 1 9]

/-- Witness for C4: disconnecting receiver 1 removes only the first of
its two connections and erases emitter 0 from its sender set. -/
theorem claim4_witness :
    getSig (step exDup (Op.disconnect 0 1)) 0 = [⟨2, 8⟩, ⟨1, 9⟩] ∧
    getSlot (step exDup (Op.disconnect 0 1)) 1 = setErase 0 (getSlot exDup 1) := by
  have h := claim4_disconnect_first_match exDup 0 1 [] [⟨2, 8⟩, ⟨1, 9⟩] ⟨1, 7⟩
    (by decide) (by decide) (by decide) (by decide) (by decide)
  exact ⟨h.1, h.2.1⟩

/-- Claim C5: destroying a connected receiver removes every connection
targeting it from every emitter in its back-reference set; the teardown's
only effect on receiver tables is dropping the destroyed receiver itself
(the emitter-side removal never calls back into the receiver); and a
subsequent `emit` on any of those emitters invokes none of the destroyed
receiver's callables. -/
theorem claim5_receiver_destruction (st : St) (r : Nat) (hwf : WF st)
    (hr : liveR st r) :
    (∀ e ∈ getSlot st r,
      getSig (step st (Op.destroyR r)) e = slotDisconnectList r (getSig st e)) ∧
    (∀ e ∈ getSlot st r, ∀ a : Nat,
      ∀ p ∈ emitTrace (step st (Op.destroyR r)) e a, p.1 ≠ r) ∧
    ¬ liveR (step st (Op.destroyR r)) r ∧
    (step st (Op.destroyR r)).slots = aerase r st.slots := by
  have hnd : (getSlot st r).Nodup := wf_slot_nodup hwf r
  simp only [step, if_pos hr]
  refine ⟨?_, ?_, ?_, rfl⟩
  · intro e hemem
    rw [destroyROp_getSig hnd, if_pos hemem]
  · intro e hemem a p hp
    rw [emitTrace, destroyROp_getSig hnd, if_pos hemem] at hp
    obtain ⟨c, hcm, rfl⟩ := List.mem_map.mp hp
    have := List.of_mem_filter hcm
    simpa [slotDisconnectList] using this
  · rw [destroyROp_liveR]
    simp

/-- Example graph for C5: emitters 0 and 1, receivers 2 and 3; receiver 2
is connected to both emitters. -/
def exDestroy : St := run St.empty
  [Op.newE 0, Op.newE 1, Op.newR 2, Op.newR 3, Op.connect 0 2 7,
    Op.connect 0 3 8, Op.connect 1 2 9]

/-- Witness for C5: destroying receiver 2 strips its connections from
emitter 0 and removes receiver 2 from the graph. -/
theorem claim5_witness :
    getSig (step exDestroy (Op.destroyR 2)) 0
      = slotDisconnectList 2 (getSig exDestroy 0) ∧
    ¬ liveR (step exDestroy (Op.destroyR 2)) 2 := by
  have h := claim5_receiver_destruction exDestroy 2 (by decide) (by decide)
  exact ⟨h.1 0 (by decide), h.2.2.1⟩

/-- Claim C6: copy-constructing an emitter duplicates every connection of
the source (same receivers) into the new emitter's list, registers the new
emitter with each targeted receiver, and emitting on the original and on
the copy each produce the same invocations as the source did. -/
theorem claim6_emitter_copy (st : St) (src dst a : Nat) (hinv : Inv st)
    (hsrc : liveE st src) (hdst : ¬liveE st dst) :
    getSig (step st (Op.copyE src dst)) dst = getSig st src ∧
    getSig (step st (Op.copyE src dst)) src = getSig st src ∧
    (∀ c ∈ getSig st src, dst ∈ getSlot (step st (Op.copyE src dst)) c.dest) ∧
    emitTrace (step st (Op.copyE src dst)) dst a = emitTrace st src a ∧
    emitTrace (step st (Op.copyE src dst)) src a = emitTrace st src a := by
  have hguard : liveE st src ∧ ¬liveE st dst := ⟨hsrc, hdst⟩
  have hne : src ≠ dst := fun hh => hdst (hh ▸ hsrc)
  simp only [step, if_pos hguard]
  have h1 : getSig (copyEOp st src dst) dst = getSig st src := by
    rw [copyEOp_getSig hdst, if_pos rfl]
  have h2 : getSig (copyEOp st src dst) src = getSig st src := by
    rw [copyEOp_getSig hdst, if_neg hne]
  refine ⟨h1, h2, ?_, ?_, ?_⟩
  · intro c hc
    have hl := (invFwd_apply hinv.1 hc).1
    rw [copyEOp_getSlot_mem dst (List.mem_map_of_mem Conn.dest hc) hl]
    exact mem_setInsert.mpr (Or.inl rfl)
  · simp [emitTrace, h1]
  · simp [emitTrace, h2]

/-- Example graph shared by several witnesses: emitter 0, receiver 1, one
connection. -/
def exConn : St := run St.empty [Op.newE 0, Op.newR 1, Op.connect 0 1 5]

/-- Witness for C6: copying emitter 0 to fresh identity 2. -/
theorem claim6_witness :
    getSig (step exConn (Op.copyE 0 2)) 2 = getSig exConn 0 ∧
    emitTrace (step exConn (Op.copyE 0 2)) 2 3 = emitTrace exConn 0 3 := by
  have h := claim6_emitter_copy exConn 0 2 3 (by decide) (by decide) (by decide)
  exact ⟨h.1, h.2.2.2.1⟩

/-- Claim C7: copy-constructing a connected receiver duplicates the
relationship.  For every emitter in the source's back-reference set: a
connection to the source exists; the emitter's list becomes the old list
followed by rebound clones targeting the copy; a subsequent emit invokes
both the original's and the copy's callables; and the two are
independently disconnectable — disconnecting the original removes no
connection of the copy and vice versa. -/
theorem claim7_receiver_copy_independent (st : St) (src dst e a : Nat)
    (hwf : WF st) (hinv : Inv st) (hsrc : liveR st src) (hdst : ¬liveR st dst)
    (he : e ∈ getSlot st src) :
    (∃ c ∈ getSig st e, c.dest = src) ∧
    getSig (step st (Op.copyR src dst)) e
      = getSig st e ++ ((getSig st e).filter (fun c => c.dest = src)).map
          (fun c => ⟨dst, c.fn⟩) ∧
    (∀ c ∈ getSig st e, c.dest = src →
      (src, c.fn, a) ∈ emitTrace (step st (Op.copyR src dst)) e a ∧
      (dst, c.fn, a) ∈ emitTrace (step st (Op.copyR src dst)) e a) ∧
    (getSig (step (step st (Op.copyR src dst)) (Op.disconnect e src)) e).filter
        (fun c => c.dest = dst)
      = (getSig (step st (Op.copyR src dst)) e).filter (fun c => c.dest = dst) ∧
    (getSig (step (step st (Op.copyR src dst)) (Op.disconnect e dst)) e).filter
        (fun c => c.dest = src)
      = (getSig (step st (Op.copyR src dst)) e).filter (fun c => c.dest = src) := by
  have hnd : (getSlot st src).Nodup := wf_slot_nodup hwf src
  have hguard : liveR st src ∧ ¬liveR st dst := ⟨hsrc, hdst⟩
  have hsd : src ≠ dst := fun hh => hdst (hh ▸ hsrc)
  have hstep : step st (Op.copyR src dst) = copyROp st src dst := by
    simp [step, hguard]
  have hsig : getSig (step st (Op.copyR src dst)) e
      = getSig st e ++ ((getSig st e).filter (fun c => c.dest = src)).map
          (fun c => ⟨dst, c.fn⟩) := by
    rw [hstep, copyROp_getSig dst hnd, if_pos he]
    rfl
  refine ⟨?_, hsig, ?_, ?_, ?_⟩
  · obtain ⟨_, c, hcm, hcd⟩ := invBwd_apply hinv.2 he
    exact ⟨c, hcm, hcd⟩
  · intro c hc hcd
    constructor
    · rw [emitTrace, hsig]
      exact List.mem_map.mpr ⟨c, List.mem_append_left _ hc, by rw [hcd]⟩
    · rw [emitTrace, hsig]
      refine List.mem_map.mpr ⟨⟨dst, c.fn⟩, ?_, rfl⟩
      refine List.mem_append_right _ ?_
      exact List.mem_map.mpr ⟨c, List.mem_filter.mpr ⟨hc, by simpa using hcd⟩, rfl⟩
  · exact disconnect_filter_ne _ e src dst (Ne.symm hsd)
  · exact disconnect_filter_ne _ e dst src hsd

/-- Witness for C7: copying receiver 1 to fresh identity 2 in `exConn`. -/
theorem claim7_witness :
    (∃ c ∈ getSig exConn 0, c.dest = 1) ∧
    getSig (step exConn (Op.copyR 1 2)) 0
      = getSig exConn 0 ++ ((getSig exConn 0).filter (fun c => c.dest = 1)).map
          (fun c => ⟨2, c.fn⟩) := by
  have h := claim7_receiver_copy_independent exConn 1 2 0 4
    (by decide) (by decide) (by decide) (by decide) (by decide)
  exact ⟨h.1, h.2.1⟩

/-- Counterexample to claim C8 as stated: in a graph where emitter 0 holds
one connection to receiver 1 and receiver 2 is live with an empty sender
set, `slot_duplicate(1, 2)` on emitter 0 appends the rebound clone — yet
receiver 2's back-reference set still does not contain emitter 0 when the
operation returns: `slot_duplicate` performs no registration. -/
theorem claim8_cex :
    getSig (slotDuplicateOp ⟨[(0, [⟨1, 5⟩])], [(1, [0]), (2, [])]⟩ 0 1 2) 0
        = [⟨1, 5⟩, ⟨2, 5⟩] ∧
    (0 : Nat) ∉ getSlot (slotDuplicateOp ⟨[(0, [⟨1, 5⟩])], [(1, [0]), (2, [])]⟩
        0 1 2) 2 := by
  decide

/-- Claim C8, amended: `duplicate_connections(old_target, new_target)`
taken by itself appends, for every connection targeting `old_target`, a
rebound clone targeting `new_target` at the tail of this emitter's list,
in original order; it does not itself register `new_target` with this
emitter — the receiver tables are untouched (the caller, the receiver's
copy constructor, performs the registration by inserting into its own
`m_senders`). -/
theorem claim8_duplicate_no_register (st : St) (e old new : Nat)
    (he : liveE st e) :
    getSig (slotDuplicateOp st e old new) e
      = getSig st e ++ ((getSig st e).filter (fun c => c.dest = old)).map
          (fun c => ⟨new, c.fn⟩) ∧
    (∀ x, x ≠ e → getSig (slotDuplicateOp st e old new) x = getSig st x) ∧
    (slotDuplicateOp st e old new).slots = st.slots := by
  refine ⟨?_, ?_, rfl⟩
  · simp only [slotDuplicateOp, getSig, alookup_aupd_self]
    rw [map_getD_of_isSome _ (liveE_iff_isSome.mp he)]
    rfl
  · intro x hx
    simp only [slotDuplicateOp, getSig, alookup_aupd_ne _ _ _ hx]

/-- Example graph for C8 (also the one of the counterexample). -/
def ex8 : St := ⟨[(0, [⟨1, 5⟩])], [(1, [0]), (2, [])]⟩

/-- Witness for the amended C8. -/
theorem claim8_witness :
    getSig (slotDuplicateOp ex8 0 1 2) 0
      = getSig ex8 0 ++ ((getSig ex8 0).filter (fun c => c.dest = 1)).map
          (fun c => ⟨2, c.fn⟩) ∧
    (slotDuplicateOp ex8 0 1 2).slots = ex8.slots := by
  have h := claim8_duplicate_no_register ex8 0 1 2 (by decide)
  exact ⟨h.1, h.2.2⟩

/-- Claim C9: `disconnect(receiver)` on an emitter holding no connection
to that receiver is a silent no-op: the whole graph is unchanged — the
connection list, the receiver's back-reference set, and every other
object — and no `signal_disconnect` notification happens. -/
theorem claim9_disconnect_noop (st : St) (e r : Nat)
    (hnone : ∀ c ∈ getSig st e, c.dest ≠ r) :
    step st (Op.disconnect e r) = st := by
  by_cases h : liveE st e ∧ liveR st r
  · simp only [step, if_pos h, disconnectOp, removeFirst_eq_none.mpr hnone]
  · simp only [step, if_neg h]

/-- Example graph for C9: emitter 0 and receiver 1 exist but are not
connected. -/
def exPair : St := run St.empty [Op.newE 0, Op.newR 1]

/-- Witness for C9. -/
theorem claim9_witness : step exPair (Op.disconnect 0 1) = exPair :=
  claim9_disconnect_noop exPair 0 1 (by decide)

/-- Claim C10: when a receiver is copied, each emitter of its
back-reference set appends the rebound duplicates at the tail of its
connection list, in the order the originals appeared; hence on every
subsequent emit the copy's callables fire after all connections that
existed before the copy. -/
theorem claim10_duplicates_fire_last (st : St) (src dst e a : Nat)
    (hwf : WF st) (hsrc : liveR st src) (hdst : ¬liveR st dst)
    (he : e ∈ getSlot st src) :
    emitTrace (step st (Op.copyR src dst)) e a
      = emitTrace st e a
        ++ ((getSig st e).filter (fun c => c.dest = src)).map
            (fun c => (dst, c.fn, a)) := by
  have hnd : (getSlot st src).Nodup := wf_slot_nodup hwf src
  have hguard : liveR st src ∧ ¬liveR st dst := ⟨hsrc, hdst⟩
  have hstep : step st (Op.copyR src dst) = copyROp st src dst := by
    simp [step, hguard]
  rw [emitTrace, hstep, copyROp_getSig dst hnd, if_pos he]
  simp [slotDuplicateList, emitTrace, Function.comp]

/-- Witness for C10. -/
theorem claim10_witness :
    emitTrace (step exConn (Op.copyR 1 2)) 0 9
      = emitTrace exConn 0 9
        ++ ((getSig exConn 0).filter (fun c => c.dest = 1)).map
            (fun c => (2, c.fn, 9)) :=
  claim10_duplicates_fire_last exConn 1 2 0 9 (by decide) (by decide)
    (by decide) (by decide)

end Sigslot
